import Mathlib

/-!
Verification of the conversation/message storage layer of the
Gemini-Deep-Research-Agent repository (`backend/src/agent/database.py`,
class `ConversationDatabase`).

The development shallowly embeds the Python/SQLite code:

* `Json`, `dumps`, `loads` model the metadata codec (`json.dumps` /
  `json.loads`) applied to every `metadata` field;
* `sqliteTimestamp` models the text produced by SQLite's
  `CURRENT_TIMESTAMP` (UTC, `YYYY-MM-DD HH:MM:SS`, one-second
  resolution); `pyIsoTimestamp` models Python's
  `datetime.now().isoformat()` used for the timestamps in *returned*
  dictionaries;
* `DBState` with `create_conversation`, `get_conversation`,
  `get_all_conversations`, `add_message`, `get_messages` (via
  `messagesFor` / `get_messages_ok`), `delete_conversation` and
  `update_conversation_title` model the table contents and the SQL
  statements the methods execute.  Wall-clock instants read by SQL
  statements (`CURRENT_TIMESTAMP`) and by Python (`datetime.now()`) are
  explicit parameters, one per read in the source.

Two SQLite behaviours that the embedding keeps faithfully, because the
source does nothing to change them:

* the Python `sqlite3` module leaves `PRAGMA foreign_keys` at its
  default OFF on every connection it opens, so the
  `ON DELETE CASCADE` clause declared in `_init_db` is never enforced:
  `DELETE FROM conversations` removes only conversation rows;
* `ORDER BY timestamp ASC` (and `ORDER BY c.updated_at DESC`) leaves
  the relative order of rows with equal sort keys unspecified, so query
  results are modelled as a predicate on permitted output lists rather
  than one list.
-/

namespace ConversationStore

/-! ## Character and string helpers -/

/-- Byte-wise (BINARY collation) comparison of char lists, the order SQLite
uses to compare TEXT values; on the ASCII timestamp strings appearing here it
is plain code-point lexicographic order. -/
def charsLe : List Char → List Char → Bool
  | a :: as, b :: bs =>
    if a.toNat < b.toNat then true
    else if b.toNat < a.toNat then false
    else charsLe as bs
  | [], _ => true
  | _, [] => false

/-- Comparison `charsLe` on the underlying character lists of two strings. -/
def strLe (a b : String) : Bool :=
  charsLe a.data b.data

/-- Strict version of `charsLe`. -/
def charsLt : List Char → List Char → Bool
  | a :: as, b :: bs =>
    if a.toNat < b.toNat then true
    else if b.toNat < a.toNat then false
    else charsLt as bs
  | [], [] => false
  | [], _ :: _ => true
  | _, [] => false

/-- Strict string order. -/
def strLt (a b : String) : Bool :=
  charsLt a.data b.data

theorem charsLe_refl : ∀ l, charsLe l l = true := by
  intro l
  induction l with
  | nil => rfl
  | cons a as ih => simp [charsLe, ih]

theorem char_eq_of_toNat_eq {a b : Char} (h : a.toNat = b.toNat) : a = b := by
  have ha := Char.ofNat_toNat a
  have hb := Char.ofNat_toNat b
  rw [← ha, ← hb, h]

theorem charsLe_antisymm : ∀ l₁ l₂, charsLe l₁ l₂ = true → charsLe l₂ l₁ = true → l₁ = l₂ := by
  intro l₁
  induction l₁ with
  | nil =>
    intro l₂ _ h₂
    cases l₂ with
    | nil => rfl
    | cons b bs => simp [charsLe] at h₂
  | cons a as ih =>
    intro l₂ h₁ h₂
    cases l₂ with
    | nil => simp [charsLe] at h₁
    | cons b bs =>
      simp only [charsLe] at h₁ h₂
      by_cases hab : a.toNat < b.toNat
      · simp [hab, Nat.lt_asymm hab] at h₂
      · by_cases hba : b.toNat < a.toNat
        · simp [hab, hba] at h₁
        · have hval : a = b := char_eq_of_toNat_eq (by omega)
          subst hval
          simp [hab] at h₁ h₂
          rw [ih bs h₁ h₂]

theorem charsLe_total : ∀ l₁ l₂, charsLe l₁ l₂ = true ∨ charsLe l₂ l₁ = true := by
  intro l₁
  induction l₁ with
  | nil => intro l₂; left; cases l₂ <;> rfl
  | cons a as ih =>
    intro l₂
    cases l₂ with
    | nil => right; rfl
    | cons b bs =>
      by_cases hab : a.toNat < b.toNat
      · left; simp [charsLe, hab]
      · by_cases hba : b.toNat < a.toNat
        · right; simp [charsLe, hba]
        · have hval : a = b := char_eq_of_toNat_eq (by omega)
          subst hval
          rcases ih bs with h | h
          · left; simp [charsLe, h]
          · right; simp [charsLe, h]

theorem strLe_refl (s : String) : strLe s s = true :=
  charsLe_refl s.data

theorem strLe_antisymm {a b : String} (h₁ : strLe a b = true) (h₂ : strLe b a = true) :
    a = b := by
  cases a with
  | mk da =>
    cases b with
    | mk db =>
      have := charsLe_antisymm da db h₁ h₂
      simp [this]

theorem strLe_total (a b : String) : strLe a b = true ∨ strLe b a = true :=
  charsLe_total a.data b.data

/-- Decimal digit characters. -/
def isDigitC (c : Char) : Bool :=
  48 ≤ c.toNat && c.toNat ≤ 57

/-- Digit value of a decimal digit character. -/
def digitVal (c : Char) : Nat :=
  c.toNat - 48

/-- Fuel-driven most-significant-first decimal digits (executable form). -/
def natDigitsAux : Nat → Nat → List Char → List Char
  | 0, _, acc => acc
  | fuel + 1, n, acc =>
    if n < 10 then Char.ofNat (48 + n) :: acc
    else natDigitsAux fuel (n / 10) (Char.ofNat (48 + n % 10) :: acc)

/-- Decimal digits of a natural number, most significant first — the text
`repr` produces for a Python `int`. -/
def natDigits (n : Nat) : List Char :=
  natDigitsAux (n + 1) n []

/-- Recursive specification of `natDigits` used in proofs. -/
def digitsRec (n : Nat) : List Char :=
  if _ : n < 10 then [Char.ofNat (48 + n)]
  else digitsRec (n / 10) ++ [Char.ofNat (48 + n % 10)]
decreasing_by exact Nat.div_lt_self (by omega) (by omega)

theorem natDigitsAux_eq_digitsRec :
    ∀ n, ∀ fuel acc, n < fuel → natDigitsAux fuel n acc = digitsRec n ++ acc := by
  intro n
  induction n using Nat.strong_induction_on with
  | _ n ih =>
    intro fuel acc hlt
    cases fuel with
    | zero => omega
    | succ f =>
      by_cases h10 : n < 10
      · simp [natDigitsAux, h10, digitsRec]
      · have hdiv : n / 10 < n := Nat.div_lt_self (by omega) (by omega)
        simp only [natDigitsAux, if_neg h10]
        rw [ih (n / 10) hdiv f _ (by omega)]
        conv_rhs => rw [digitsRec]
        simp [h10]

theorem natDigits_eq_digitsRec (n : Nat) : natDigits n = digitsRec n := by
  have := natDigitsAux_eq_digitsRec n (n + 1) [] (by omega)
  simpa [natDigits] using this

/-! ## JSON documents and `json.dumps`

`Json` models the Python values that can appear in a `metadata` argument and
survive `json.dumps` / `json.loads`: `None`, booleans, integers, strings,
lists and string-keyed dicts (key order is preserved, as in Python).  Python
`float` values are outside the embedding (floating point).  `encode` follows
`json.dumps` with its default separators `", "` and `": "`.  For characters
`≥ U+007F` the source's (default) `ensure_ascii=True` would spell the same
character as a `\uXXXX` escape; either spelling decodes to the same character
under `json.loads`, and nothing in the repository reads the stored text except
through `json.loads`, so the embedding uses the direct spelling. -/

inductive Json where
  | null : Json
  | bool : Bool → Json
  | num : Int → Json
  | str : String → Json
  | arr : List Json → Json
  | obj : List (String × Json) → Json

/-- Lowercase hex digit, as produced by `json.dumps` escapes. -/
def hexDigit (n : Nat) : Char :=
  if n < 10 then Char.ofNat (48 + n) else Char.ofNat (97 + (n - 10))

/-- How `json.dumps` spells one character inside a string literal:
`"` and `\` are backslash-escaped, the five named control escapes are used
for backspace, tab, newline, form feed and carriage return, any other
control character becomes `\u00XX`, and everything else stands for itself. -/
def encodeChar (c : Char) : List Char :=
  if c = '\x22' then ['\\', '\x22']
  else if c = '\\' then ['\\', '\\']
  else if c = '\x08' then ['\\', 'b']
  else if c = '\x09' then ['\\', 't']
  else if c = '\x0a' then ['\\', 'n']
  else if c = '\x0c' then ['\\', 'f']
  else if c = '\x0d' then ['\\', 'r']
  else if c.toNat < 32 then ['\\', 'u', '0', '0', hexDigit (c.toNat / 16), hexDigit (c.toNat % 16)]
  else [c]

/-- Encoding of a string by `json.dumps`: quoted, characters escaped by `encodeChar`. -/
def encodeString (s : String) : List Char :=
  '\x22' :: (s.data.map encodeChar).flatten ++ ['\x22']

/-- Encoding of an integer by `json.dumps`. -/
def encodeInt (i : Int) : List Char :=
  if i < 0 then '-' :: natDigits i.natAbs else natDigits i.toNat

mutual

/-- Encoding by `json.dumps` with its default separators, as a character list. -/
def encode : Json → List Char
  | .null => 'n' :: ['u', 'l', 'l']
  | .bool true => 't' :: ['r', 'u', 'e']
  | .bool false => 'f' :: ['a', 'l', 's', 'e']
  | .num i => encodeInt i
  | .str s => encodeString s
  | .arr xs => '[' :: encodeItems xs ++ [']']
  | .obj kvs => '\x7b' :: encodeMembers kvs ++ ['\x7d']

/-- Array elements joined by `", "`. -/
def encodeItems : List Json → List Char
  | [] => []
  | [x] => encode x
  | x :: y :: xs => encode x ++ ',' :: ' ' :: encodeItems (y :: xs)

/-- Object members `"key": value` joined by `", "`. -/
def encodeMembers : List (String × Json) → List Char
  | [] => []
  | [(k, v)] => encodeString k ++ ':' :: ' ' :: encode v
  | (k, v) :: m :: kvs => encodeString k ++ ':' :: ' ' :: encode v ++ ',' :: ' ' :: encodeMembers (m :: kvs)

end

/-- The function `json.dumps` as used by the database layer. -/
def dumps (j : Json) : String :=
  String.mk (encode j)

example : dumps (Json.obj [("k", Json.str "v"), ("n", Json.num 3)]) = "\x7b\x22k\x22: \x22v\x22, \x22n\x22: 3\x7d" := by decide

example : dumps (Json.obj []) = "\x7b\x7d" := by decide

example : dumps (Json.arr [Json.null, Json.bool true, Json.num (-12)]) = "[null, true, -12]" := by decide

/-! ## `json.loads`

A recursive-descent parser for the grammar `json.loads` accepts, written with
explicit fuel so that it evaluates inside the kernel.  As in Python's strict
mode, raw control characters inside string literals are rejected.  Numbers
are parsed as integers; a fractional part or exponent (which Python would
turn into a `float`) makes the parse fail, keeping floats outside the
embedding.  Surrogate `\uXXXX` escapes (never produced by `dumps` here) are
rejected rather than pair-combined. -/

/-- JSON whitespace. -/
def isWs (c : Char) : Bool :=
  c = ' ' || c = '\x09' || c = '\x0a' || c = '\x0d'

/-- Skip leading whitespace. -/
def skipWs (l : List Char) : List Char :=
  l.dropWhile isWs

/-- Value of a hex digit character, accepting both cases. -/
def hexVal (c : Char) : Option Nat :=
  if 48 ≤ c.toNat && c.toNat ≤ 57 then some (c.toNat - 48)
  else if 97 ≤ c.toNat && c.toNat ≤ 102 then some (c.toNat - 87)
  else if 65 ≤ c.toNat && c.toNat ≤ 70 then some (c.toNat - 55)
  else none

/-- Parse the body of a string literal (after the opening quote), returning
the decoded characters and the input after the closing quote. -/
def parseStringBody : Nat → List Char → Option (List Char × List Char)
  | 0, _ => none
  | _ + 1, [] => none
  | fuel + 1, c :: rest =>
    if c = '\x22' then some ([], rest)
    else if c = '\\' then
      match rest with
      | [] => none
      | e :: rest2 =>
        if e = '\x22' then
          (parseStringBody fuel rest2).map (fun p => ('\x22' :: p.1, p.2))
        else if e = '\\' then
          (parseStringBody fuel rest2).map (fun p => ('\\' :: p.1, p.2))
        else if e = '/' then
          (parseStringBody fuel rest2).map (fun p => ('/' :: p.1, p.2))
        else if e = 'b' then
          (parseStringBody fuel rest2).map (fun p => ('\x08' :: p.1, p.2))
        else if e = 't' then
          (parseStringBody fuel rest2).map (fun p => ('\x09' :: p.1, p.2))
        else if e = 'n' then
          (parseStringBody fuel rest2).map (fun p => ('\x0a' :: p.1, p.2))
        else if e = 'f' then
          (parseStringBody fuel rest2).map (fun p => ('\x0c' :: p.1, p.2))
        else if e = 'r' then
          (parseStringBody fuel rest2).map (fun p => ('\x0d' :: p.1, p.2))
        else if e = 'u' then
          match rest2 with
          | h1 :: h2 :: h3 :: h4 :: rest3 =>
            match hexVal h1, hexVal h2, hexVal h3, hexVal h4 with
            | some a, some b, some d, some e' =>
              let code := ((a * 16 + b) * 16 + d) * 16 + e'
              if 0xd800 ≤ code && code ≤ 0xdfff then none
              else (parseStringBody fuel rest3).map (fun p => (Char.ofNat code :: p.1, p.2))
            | _, _, _, _ => none
          | _ => none
        else none
    else if c.toNat < 32 then none
    else (parseStringBody fuel rest).map (fun p => (c :: p.1, p.2))

/-- Longest prefix of decimal digits. -/
def spanDigits : List Char → List Char × List Char
  | [] => ([], [])
  | c :: rest =>
    if isDigitC c then
      let p := spanDigits rest
      (c :: p.1, p.2)
    else ([], c :: rest)

/-- Numeric value of a digit string, most significant first. -/
def digitsToNat (ds : List Char) : Nat :=
  ds.foldl (fun a c => a * 10 + digitVal c) 0

/-- True when a number literal would continue here as a Python `float`
(fraction or exponent). -/
def floatCont : List Char → Bool
  | [] => false
  | c :: _ => c = '.' || c = 'e' || c = 'E'

/-- Parse an integer literal. -/
def parseNumber (s : List Char) : Option (Json × List Char) :=
  match s with
  | [] => none
  | c :: rest =>
    if c = '-' then
      let p := spanDigits rest
      if p.1 = [] then none
      else if floatCont p.2 then none
      else some (.num (-(digitsToNat p.1 : Int)), p.2)
    else
      let p := spanDigits (c :: rest)
      if p.1 = [] then none
      else if floatCont p.2 then none
      else some (.num (digitsToNat p.1), p.2)

mutual

/-- Parse one JSON value after skipping leading whitespace. -/
def parseValue : Nat → List Char → Option (Json × List Char)
  | 0, _ => none
  | fuel + 1, s =>
    match skipWs s with
    | [] => none
    | c :: rest =>
      if c = 'n' then
        match rest with
        | 'u' :: 'l' :: 'l' :: r => some (.null, r)
        | _ => none
      else if c = 't' then
        match rest with
        | 'r' :: 'u' :: 'e' :: r => some (.bool true, r)
        | _ => none
      else if c = 'f' then
        match rest with
        | 'a' :: 'l' :: 's' :: 'e' :: r => some (.bool false, r)
        | _ => none
      else if c = '\x22' then
        match parseStringBody fuel rest with
        | some (cs, r) => some (.str (String.mk cs), r)
        | none => none
      else if c = '[' then
        match skipWs rest with
        | [] => none
        | c2 :: r2 =>
          if c2 = ']' then some (.arr [], r2)
          else
            match parseItems fuel (c2 :: r2) with
            | some (xs, r3) => some (.arr xs, r3)
            | none => none
      else if c = '\x7b' then
        match skipWs rest with
        | [] => none
        | c2 :: r2 =>
          if c2 = '\x7d' then some (.obj [], r2)
          else
            match parseMembers fuel (c2 :: r2) with
            | some (kvs, r3) => some (.obj kvs, r3)
            | none => none
      else parseNumber (c :: rest)

/-- Parse the elements of a non-empty array up to and including `]`. -/
def parseItems : Nat → List Char → Option (List Json × List Char)
  | 0, _ => none
  | fuel + 1, s =>
    match parseValue fuel s with
    | none => none
    | some (v, rest) =>
      match skipWs rest with
      | ',' :: rest2 =>
        match parseItems fuel (skipWs rest2) with
        | some (xs, rest3) => some (v :: xs, rest3)
        | none => none
      | ']' :: rest2 => some ([v], rest2)
      | _ => none

/-- Parse the members of a non-empty object up to and including `}`. -/
def parseMembers : Nat → List Char → Option (List (String × Json) × List Char)
  | 0, _ => none
  | fuel + 1, s =>
    match s with
    | '\x22' :: rest =>
      match parseStringBody fuel rest with
      | none => none
      | some (k, rest1) =>
        match skipWs rest1 with
        | ':' :: rest2 =>
          match parseValue fuel rest2 with
          | none => none
          | some (v, rest3) =>
            match skipWs rest3 with
            | ',' :: rest4 =>
              match parseMembers fuel (skipWs rest4) with
              | some (kvs, rest5) => some ((String.mk k, v) :: kvs, rest5)
              | none => none
            | '\x7d' :: rest4 => some ([(String.mk k, v)], rest4)
            | _ => none
        | _ => none
    | _ => none

end

/-- The function `json.loads`: parse one value, allow trailing whitespace, reject
anything else left over. -/
def loads (s : String) : Option Json :=
  match parseValue (2 * s.data.length + 2) s.data with
  | some (j, rest) => if skipWs rest = [] then some j else none
  | none => none

example : loads "\x7b\x22k\x22: \x22v\x22, \x22n\x22: 3\x7d" = some (Json.obj [("k", Json.str "v"), ("n", Json.num 3)]) := rfl

example : loads "[null, true, -12]" = some (Json.arr [Json.null, Json.bool true, Json.num (-12)]) := rfl

example : loads "\x7b\x7d" = some (Json.obj []) := rfl

/-! ## Round trip: `loads (dumps j) = some j` -/

/-- Does the input start with a decimal digit? -/
def headDigit : List Char → Bool
  | [] => false
  | c :: _ => isDigitC c

/-- Does the input start with a character that would extend a preceding
integer literal (another digit, or a float continuation)? -/
def numericTail : List Char → Bool
  | [] => false
  | c :: _ => isDigitC c || c = '.' || c = 'e' || c = 'E'

/-- Guard on the text following an encoded value: only for numbers does the
following text matter. -/
def numOk : Json → List Char → Bool
  | .num _, rest => !numericTail rest
  | _, _ => true

theorem headDigit_false_of_numericTail {rest : List Char} (h : numericTail rest = false) :
    headDigit rest = false := by
  cases rest with
  | nil => rfl
  | cons c t =>
    simp [numericTail] at h
    obtain ⟨⟨⟨h1, _⟩, _⟩, _⟩ := h
    simp [headDigit, h1]

theorem floatCont_false_of_numericTail {rest : List Char} (h : numericTail rest = false) :
    floatCont rest = false := by
  cases rest with
  | nil => rfl
  | cons c t =>
    simp [numericTail] at h
    obtain ⟨⟨⟨_, h2⟩, h3⟩, h4⟩ := h
    simp [floatCont, h2, h3, h4]

theorem isDigitC_char {r : Nat} (h : r < 10) : isDigitC (Char.ofNat (48 + r)) = true := by
  interval_cases r <;> decide

theorem digitVal_char {r : Nat} (h : r < 10) : digitVal (Char.ofNat (48 + r)) = r := by
  interval_cases r <;> decide

theorem digitsRec_ne_nil (n : Nat) : digitsRec n ≠ [] := by
  rw [digitsRec]
  split
  · simp
  · simp

theorem digitsRec_all_digit : ∀ n, ∀ c ∈ digitsRec n, isDigitC c = true := by
  intro n
  induction n using Nat.strong_induction_on with
  | _ n ih =>
    intro c hc
    rw [digitsRec] at hc
    split at hc
    · rename_i h10
      simp at hc
      subst hc
      exact isDigitC_char h10
    · rename_i h10
      simp at hc
      rcases hc with hc | hc
      · exact ih (n / 10) (Nat.div_lt_self (by omega) (by omega)) c hc
      · subst hc
        exact isDigitC_char (Nat.mod_lt _ (by omega))

theorem digitsToNat_append_digit (ds : List Char) (c : Char) :
    digitsToNat (ds ++ [c]) = digitsToNat ds * 10 + digitVal c := by
  simp [digitsToNat]

theorem digitsToNat_digitsRec : ∀ n, digitsToNat (digitsRec n) = n := by
  intro n
  induction n using Nat.strong_induction_on with
  | _ n ih =>
    rw [digitsRec]
    split
    · rename_i h10
      simp [digitsToNat, digitVal_char h10]
    · rename_i h10
      rw [digitsToNat_append_digit]
      rw [ih (n / 10) (Nat.div_lt_self (by omega) (by omega))]
      rw [digitVal_char (Nat.mod_lt _ (by omega))]
      omega

theorem spanDigits_append :
    ∀ ds rest, (∀ c ∈ ds, isDigitC c = true) → headDigit rest = false →
      spanDigits (ds ++ rest) = (ds, rest) := by
  intro ds
  induction ds with
  | nil =>
    intro rest _ hrest
    cases rest with
    | nil => rfl
    | cons c t =>
      simp [headDigit] at hrest
      simp [spanDigits, hrest]
  | cons d ds' ih =>
    intro rest hds hrest
    have hd : isDigitC d = true := hds d (by simp)
    simp only [List.cons_append, spanDigits, hd, if_pos, List.append_eq]
    rw [ih rest (fun c hc => hds c (by simp [hc])) hrest]

theorem char_ne_of_isDigitC {c : Char} (h : isDigitC c = true) {d : Char}
    (hd : isDigitC d = false) : c ≠ d := by
  intro heq
  subst heq
  rw [h] at hd
  exact Bool.noConfusion hd

theorem parseNumber_encodeInt (i : Int) (rest : List Char) (h : numericTail rest = false) :
    parseNumber (encodeInt i ++ rest) = some (.num i, rest) := by
  have hdigits := digitsRec_all_digit
  by_cases hneg : i < 0
  · simp only [encodeInt, if_pos hneg, natDigits_eq_digitsRec, List.cons_append]
    simp only [parseNumber, if_pos rfl]
    rw [spanDigits_append _ rest (hdigits i.natAbs) (headDigit_false_of_numericTail h)]
    have hne := digitsRec_ne_nil i.natAbs
    have hval : -((digitsToNat (digitsRec i.natAbs) : Int)) = i := by
      rw [digitsToNat_digitsRec]
      omega
    simp [hne, floatCont_false_of_numericTail h, hval]
  · simp only [encodeInt, if_neg hneg, natDigits_eq_digitsRec]
    rcases hcons : digitsRec i.toNat with _ | ⟨d, t⟩
    · exact absurd hcons (digitsRec_ne_nil _)
    · have hd : isDigitC d = true := by
        apply hdigits i.toNat
        rw [hcons]
        simp
      have hdm : d ≠ '-' := char_ne_of_isDigitC hd (by decide)
      simp only [List.cons_append, parseNumber, if_neg hdm]
      rw [show d :: (t ++ rest) = (d :: t) ++ rest by simp, ← hcons]
      rw [spanDigits_append _ rest (hdigits i.toNat) (headDigit_false_of_numericTail h)]
      have hne := digitsRec_ne_nil i.toNat
      have hval : ((digitsToNat (digitsRec i.toNat) : Int)) = i := by
        rw [digitsToNat_digitsRec]
        omega
      simp [hne, floatCont_false_of_numericTail h, hval]

theorem hexVal_hexDigit {n : Nat} (h : n < 16) : hexVal (hexDigit n) = some n := by
  interval_cases n <;> decide

theorem stringMk_data (s : String) : String.mk s.data = s := by
  cases s
  rfl

theorem parseStringBody_encode :
    ∀ (cs : List Char) (fuel : Nat) (rest : List Char), cs.length < fuel →
      parseStringBody fuel ((cs.map encodeChar).flatten ++ '\x22' :: rest) = some (cs, rest) := by
  intro cs
  induction cs with
  | nil =>
    intro fuel rest h
    cases fuel with
    | zero => omega
    | succ f => simp [parseStringBody]
  | cons c cs' ih =>
    intro fuel rest h
    cases fuel with
    | zero => simp at h
    | succ f =>
      have hlen : cs'.length < f := by
        simp only [List.length_cons] at h
        omega
      have hrec := ih f rest hlen
      simp only [List.map_cons, List.flatten_cons, List.append_assoc]
      by_cases h1 : c = '\x22'
      · subst h1
        simp [encodeChar, parseStringBody, hrec]
      · by_cases h2 : c = '\\'
        · subst h2
          simp [encodeChar, parseStringBody, hrec]
        · by_cases h3 : c = '\x08'
          · subst h3
            simp [encodeChar, parseStringBody, hrec]
          · by_cases h4 : c = '\x09'
            · subst h4
              simp [encodeChar, parseStringBody, hrec]
            · by_cases h5 : c = '\x0a'
              · subst h5
                simp [encodeChar, parseStringBody, hrec]
              · by_cases h6 : c = '\x0c'
                · subst h6
                  simp [encodeChar, parseStringBody, hrec]
                · by_cases h7 : c = '\x0d'
                  · subst h7
                    simp [encodeChar, parseStringBody, hrec]
                  · by_cases h8 : c.toNat < 32
                    · have henc : encodeChar c =
                          ['\\', 'u', '0', '0', hexDigit (c.toNat / 16), hexDigit (c.toNat % 16)] := by
                        simp [encodeChar, h1, h2, h3, h4, h5, h6, h7, h8]
                      rw [henc]
                      have hhi : c.toNat / 16 < 16 := by omega
                      have hlo : c.toNat % 16 < 16 := by omega
                      have hcode : ((0 * 16 + 0) * 16 + c.toNat / 16) * 16 + c.toNat % 16 = c.toNat := by
                        omega
                      have hsur : ¬ (55296 ≤ c.toNat) := by omega
                      have hv0 : hexVal '0' = some 0 := by decide
                      have hcode2 : c.toNat / 16 * 16 + c.toNat % 16 = c.toNat := by omega
                      simp [parseStringBody, hv0, hexVal_hexDigit hhi, hexVal_hexDigit hlo, hrec]
                      constructor
                      · intro hge
                        omega
                      · rw [hcode2]
                        exact Char.ofNat_toNat c
                    · have henc : encodeChar c = [c] := by
                        simp [encodeChar, h1, h2, h3, h4, h5, h6, h7, h8]
                      rw [henc]
                      simp [parseStringBody, h1, h2, h8, hrec]

/-! ### Heads of encoded values -/

theorem char_facts_of_isDigitC {c : Char} (h : isDigitC c = true) :
    isWs c = false ∧ c ≠ ']' ∧ c ≠ '\x7d' ∧ c ≠ 'n' ∧ c ≠ 't' ∧ c ≠ 'f' ∧
      c ≠ '\x22' ∧ c ≠ '[' ∧ c ≠ '\x7b' ∧ c ≠ '-' := by
  refine ⟨?_, char_ne_of_isDigitC h (by decide), char_ne_of_isDigitC h (by decide),
    char_ne_of_isDigitC h (by decide), char_ne_of_isDigitC h (by decide),
    char_ne_of_isDigitC h (by decide), char_ne_of_isDigitC h (by decide),
    char_ne_of_isDigitC h (by decide), char_ne_of_isDigitC h (by decide),
    char_ne_of_isDigitC h (by decide)⟩
  have hsp : c ≠ ' ' := char_ne_of_isDigitC h (by decide)
  have hta : c ≠ '\x09' := char_ne_of_isDigitC h (by decide)
  have hnl : c ≠ '\x0a' := char_ne_of_isDigitC h (by decide)
  have hcr : c ≠ '\x0d' := char_ne_of_isDigitC h (by decide)
  simp [isWs, hsp, hta, hnl, hcr]

theorem encodeInt_cons (i : Int) :
    ∃ c t, encodeInt i = c :: t ∧ (c = '-' ∨ isDigitC c = true) := by
  by_cases hneg : i < 0
  · exact ⟨'-', natDigits i.natAbs, by simp [encodeInt, hneg], Or.inl rfl⟩
  · rw [show encodeInt i = natDigits i.toNat by simp [encodeInt, hneg], natDigits_eq_digitsRec]
    rcases hcons : digitsRec i.toNat with _ | ⟨d, t⟩
    · exact absurd hcons (digitsRec_ne_nil _)
    · refine ⟨d, t, rfl, Or.inr ?_⟩
      apply digitsRec_all_digit i.toNat
      rw [hcons]
      simp

theorem encode_cons (j : Json) :
    ∃ c t, encode j = c :: t ∧ isWs c = false ∧ c ≠ ']' ∧ c ≠ '\x7d' := by
  have hgood : ∀ c : Char, c ∈ ['n', 't', 'f', '-', '\x22', '[', '\x7b'] →
      isWs c = false ∧ c ≠ ']' ∧ c ≠ '\x7d' := by decide
  cases j with
  | num i =>
    obtain ⟨c, t, hct, hc⟩ := encodeInt_cons i
    refine ⟨c, t, hct, ?_⟩
    rcases hc with rfl | hdig
    · exact hgood '-' (by simp)
    · obtain ⟨hws, hrb, hcb, _⟩ := char_facts_of_isDigitC hdig
      exact ⟨hws, hrb, hcb⟩
  | bool b =>
    cases b
    · exact ⟨'f', _, rfl, hgood 'f' (by simp)⟩
    · exact ⟨'t', _, rfl, hgood 't' (by simp)⟩
  | null => exact ⟨'n', _, rfl, hgood 'n' (by simp)⟩
  | str s => exact ⟨'\x22', _, rfl, hgood '\x22' (by simp)⟩
  | arr xs => exact ⟨'[', _, rfl, hgood '[' (by simp)⟩
  | obj kvs => exact ⟨'\x7b', _, rfl, hgood '\x7b' (by simp)⟩

theorem skipWs_cons_not_ws {c : Char} (h : isWs c = false) (l : List Char) :
    skipWs (c :: l) = c :: l := by
  simp [skipWs, List.dropWhile_cons, h]

theorem skipWs_space (l : List Char) : skipWs (' ' :: l) = skipWs l := by
  have hw : isWs ' ' = true := by decide
  simp [skipWs, List.dropWhile_cons, hw]

theorem skipWs_encode_append (j : Json) (r : List Char) :
    skipWs (encode j ++ r) = encode j ++ r := by
  obtain ⟨c, t, hct, hws, -, -⟩ := encode_cons j
  rw [hct, List.cons_append, skipWs_cons_not_ws hws]

theorem encodeItems_cons_ex (x : Json) (xs : List Json) :
    ∃ u, encodeItems (x :: xs) = encode x ++ u := by
  cases xs with
  | nil => exact ⟨[], by simp [encodeItems]⟩
  | cons y ys => exact ⟨',' :: ' ' :: encodeItems (y :: ys), by simp [encodeItems]⟩

theorem skipWs_encodeItems_append (x : Json) (xs : List Json) (r : List Char) :
    skipWs (encodeItems (x :: xs) ++ r) = encodeItems (x :: xs) ++ r := by
  obtain ⟨u, hu⟩ := encodeItems_cons_ex x xs
  rw [hu, List.append_assoc, skipWs_encode_append, ← List.append_assoc]

theorem parseValue_cons_space (fuel : Nat) (s : List Char) :
    parseValue fuel (' ' :: s) = parseValue fuel s := by
  cases fuel with
  | zero => rfl
  | succ f => simp only [parseValue, skipWs_space]

theorem numOk_nil (j : Json) : numOk j [] = true := by
  cases j <;> rfl

theorem numOk_rb (j : Json) (r : List Char) : numOk j (']' :: r) = true := by
  cases j <;> simp [numOk, numericTail, isDigitC]

theorem numOk_cm (j : Json) (r : List Char) : numOk j (',' :: r) = true := by
  cases j <;> simp [numOk, numericTail, isDigitC]

theorem numOk_cb (j : Json) (r : List Char) : numOk j ('\x7d' :: r) = true := by
  cases j <;> simp [numOk, numericTail, isDigitC]

/-! ### Fuel accounting -/

mutual

/-- Fuel sufficient for `parseValue` on the encoding of `j`. -/
def jsonSize : Json → Nat
  | .null => 1
  | .bool _ => 1
  | .num _ => 1
  | .str s => s.data.length + 2
  | .arr xs => itemsSize xs + 1
  | .obj kvs => membersSize kvs + 1

/-- Fuel sufficient for `parseItems` on the encoding of a list of elements. -/
def itemsSize : List Json → Nat
  | [] => 1
  | x :: xs => jsonSize x + 1 + itemsSize xs

/-- Fuel sufficient for `parseMembers` on the encoding of a member list. -/
def membersSize : List (String × Json) → Nat
  | [] => 1
  | (k, v) :: kvs => k.data.length + 2 + jsonSize v + 1 + membersSize kvs

end

theorem jsonSize_pos (j : Json) : 1 ≤ jsonSize j := by
  cases j <;> simp [jsonSize]

theorem itemsSize_pos (xs : List Json) : 1 ≤ itemsSize xs := by
  cases xs with
  | nil => simp [itemsSize]
  | cons x xs => simp [itemsSize]; omega

theorem membersSize_pos (kvs : List (String × Json)) : 1 ≤ membersSize kvs := by
  cases kvs with
  | nil => simp [membersSize]
  | cons kv kvs =>
    obtain ⟨k, v⟩ := kv
    simp [membersSize]
    omega

theorem one_le_encodeChar_length (c : Char) : 1 ≤ (encodeChar c).length := by
  simp only [encodeChar]
  split_ifs <;> simp

theorem length_le_flatten_encodeChar (cs : List Char) :
    cs.length ≤ ((cs.map encodeChar).flatten).length := by
  induction cs with
  | nil => simp
  | cons c cs ih =>
    simp only [List.map_cons, List.flatten_cons, List.length_append, List.length_cons]
    have := one_le_encodeChar_length c
    omega

theorem encodeInt_length_pos (i : Int) : 1 ≤ (encodeInt i).length := by
  obtain ⟨c, t, hct, -⟩ := encodeInt_cons i
  simp [hct]

theorem encode_length_pos (j : Json) : 1 ≤ (encode j).length := by
  obtain ⟨c, t, hct, -⟩ := encode_cons j
  simp [hct]

theorem size_le_double :
    ∀ N,
      (∀ j : Json, jsonSize j ≤ N → jsonSize j ≤ 2 * (encode j).length) ∧
      (∀ xs : List Json, itemsSize xs ≤ N → itemsSize xs ≤ 2 * (encodeItems xs).length + 2) ∧
      (∀ kvs : List (String × Json), membersSize kvs ≤ N →
        membersSize kvs ≤ 2 * (encodeMembers kvs).length + 2) := by
  intro N
  induction N using Nat.strong_induction_on with
  | _ N ih =>
    refine ⟨?_, ?_, ?_⟩
    · intro j hN
      cases j with
      | null => simp [jsonSize, encode]
      | bool b => cases b <;> simp [jsonSize, encode]
      | num i =>
        have := encodeInt_length_pos i
        simp only [jsonSize, encode]
        omega
      | str s =>
        have := length_le_flatten_encodeChar s.data
        simp only [jsonSize, encode, encodeString, List.length_cons, List.length_append,
          List.length_singleton]
        omega
      | arr xs =>
        have hlt : itemsSize xs < N := by
          have := jsonSize_pos (.arr xs)
          simp only [jsonSize] at hN ⊢
          omega
        have hrec := (ih (itemsSize xs) hlt).2.1 xs le_rfl
        simp only [jsonSize, encode, List.length_cons, List.length_append,
          List.length_singleton] at *
        omega
      | obj kvs =>
        have hlt : membersSize kvs < N := by
          simp only [jsonSize] at hN
          omega
        have hrec := (ih (membersSize kvs) hlt).2.2 kvs le_rfl
        simp only [jsonSize, encode, List.length_cons, List.length_append,
          List.length_singleton] at *
        omega
    · intro xs hN
      cases xs with
      | nil => simp [itemsSize]
      | cons x xs =>
        have hxlt : jsonSize x < N := by
          have := itemsSize_pos xs
          simp only [itemsSize] at hN
          omega
        have hx := (ih (jsonSize x) hxlt).1 x le_rfl
        cases xs with
        | nil =>
          simp only [itemsSize, encodeItems] at *
          omega
        | cons y ys =>
          have htlt : itemsSize (y :: ys) < N := by
            have := jsonSize_pos x
            simp only [itemsSize] at hN ⊢
            omega
          have ht := (ih (itemsSize (y :: ys)) htlt).2.1 (y :: ys) le_rfl
          simp only [itemsSize, encodeItems, List.length_append, List.length_cons] at *
          omega
    · intro kvs hN
      cases kvs with
      | nil => simp [membersSize]
      | cons kv kvs =>
        obtain ⟨k, v⟩ := kv
        have hvlt : jsonSize v < N := by
          have := membersSize_pos kvs
          simp only [membersSize] at hN
          omega
        have hv := (ih (jsonSize v) hvlt).1 v le_rfl
        have hkey := length_le_flatten_encodeChar k.data
        cases kvs with
        | nil =>
          simp only [membersSize, encodeMembers, encodeString, List.length_append,
            List.length_cons, List.length_singleton] at *
          omega
        | cons m ms =>
          have htlt : membersSize (m :: ms) < N := by
            have := jsonSize_pos v
            simp only [membersSize] at hN ⊢
            omega
          have ht := (ih (membersSize (m :: ms)) htlt).2.2 (m :: ms) le_rfl
          simp only [membersSize, encodeMembers, encodeString, List.length_append,
            List.length_cons, List.length_singleton] at *
          omega

/-! ### The round-trip theorem -/

theorem encodeMembers_cons_ex (k : String) (v : Json) (kvs : List (String × Json)) :
    ∃ u, encodeMembers ((k, v) :: kvs) = '\x22' :: u := by
  cases kvs with
  | nil =>
    exact ⟨(k.data.map encodeChar).flatten ++ '\x22' :: ':' :: ' ' :: encode v,
      by simp [encodeMembers, encodeString]⟩
  | cons m ms =>
    exact ⟨(k.data.map encodeChar).flatten ++
        '\x22' :: ':' :: ' ' :: (encode v ++ ',' :: ' ' :: encodeMembers (m :: ms)),
      by simp [encodeMembers, encodeString]⟩

theorem skipWs_encodeMembers_append (k : String) (v : Json) (kvs : List (String × Json))
    (r : List Char) :
    skipWs (encodeMembers ((k, v) :: kvs) ++ r) = encodeMembers ((k, v) :: kvs) ++ r := by
  obtain ⟨u, hu⟩ := encodeMembers_cons_ex k v kvs
  rw [hu, List.cons_append, skipWs_cons_not_ws (by decide)]

theorem parse_encode_main :
    ∀ N,
      (∀ j fuel rest, jsonSize j ≤ N → jsonSize j ≤ fuel → numOk j rest = true →
        parseValue fuel (encode j ++ rest) = some (j, rest)) ∧
      (∀ x xs fuel rest, itemsSize (x :: xs) ≤ N → itemsSize (x :: xs) ≤ fuel →
        parseItems fuel (encodeItems (x :: xs) ++ ']' :: rest) = some (x :: xs, rest)) ∧
      (∀ k v kvs fuel rest, membersSize ((k, v) :: kvs) ≤ N → membersSize ((k, v) :: kvs) ≤ fuel →
        parseMembers fuel (encodeMembers ((k, v) :: kvs) ++ '\x7d' :: rest) =
          some ((k, v) :: kvs, rest)) := by
  intro N
  induction N using Nat.strong_induction_on with
  | _ N ih =>
    refine ⟨?_, ?_, ?_⟩
    · intro j fuel rest hN hfuel hnum
      have hpos := jsonSize_pos j
      cases fuel with
      | zero => omega
      | succ f =>
        cases j with
        | null => simp [parseValue, encode, skipWs, List.dropWhile_cons, isWs]
        | bool b => cases b <;> simp [parseValue, encode, skipWs, List.dropWhile_cons, isWs]
        | num i =>
          have hnum' : numericTail rest = false := by
            simpa [numOk] using hnum
          obtain ⟨c, t, hct, hc⟩ := encodeInt_cons i
          have hpn := parseNumber_encodeInt i rest hnum'
          have hshape : encodeInt i ++ rest = c :: (t ++ rest) := by
            rw [hct, List.cons_append]
          rcases hc with rfl | hdig
          · simp only [encode, hshape, parseValue]
            rw [skipWs_cons_not_ws (by decide)]
            simp only [if_neg (by decide : ¬ ('-' : Char) = 'n'),
              if_neg (by decide : ¬ ('-' : Char) = 't'),
              if_neg (by decide : ¬ ('-' : Char) = 'f'),
              if_neg (by decide : ¬ ('-' : Char) = '\x22'),
              if_neg (by decide : ¬ ('-' : Char) = '['),
              if_neg (by decide : ¬ ('-' : Char) = '\x7b')]
            rw [← hshape]
            exact hpn
          · obtain ⟨hws, -, -, hn, ht', hf', hq, hlb, hob, -⟩ := char_facts_of_isDigitC hdig
            simp only [encode, hshape, parseValue]
            rw [skipWs_cons_not_ws hws]
            simp only [if_neg hn, if_neg ht', if_neg hf', if_neg hq, if_neg hlb, if_neg hob]
            rw [← hshape]
            exact hpn
        | str s =>
          have hflen : s.data.length < f := by
            simp only [jsonSize] at hfuel
            omega
          have hsb := parseStringBody_encode s.data f rest hflen
          simp only [encode, encodeString, List.cons_append, List.append_assoc,
            List.singleton_append, parseValue]
          rw [skipWs_cons_not_ws (by decide)]
          simp [hsb, stringMk_data]
        | arr xs =>
          cases xs with
          | nil => simp [parseValue, encode, encodeItems, skipWs, List.dropWhile_cons, isWs]
          | cons x xs' =>
            have hiN : itemsSize (x :: xs') < N := by
              simp only [jsonSize] at hN
              omega
            have hiF : itemsSize (x :: xs') ≤ f := by
              simp only [jsonSize] at hfuel
              omega
            have hrec := (ih (itemsSize (x :: xs')) hiN).2.1 x xs' f rest le_rfl hiF
            obtain ⟨u, hu⟩ := encodeItems_cons_ex x xs'
            obtain ⟨c, t, hct, hws, hrb, hcb⟩ := encode_cons x
            have hw : encodeItems (x :: xs') ++ ']' :: rest = c :: (t ++ (u ++ ']' :: rest)) := by
              rw [hu, hct]
              simp
            have hrec' : parseItems f (c :: (t ++ (u ++ ']' :: rest))) = some (x :: xs', rest) := by
              rw [← hw]
              exact hrec
            simp only [encode, List.cons_append, List.append_assoc, List.singleton_append,
              parseValue]
            rw [skipWs_cons_not_ws (by decide)]
            simp only [if_neg (by decide : ¬ ('[' : Char) = 'n'),
              if_neg (by decide : ¬ ('[' : Char) = 't'),
              if_neg (by decide : ¬ ('[' : Char) = 'f'),
              if_neg (by decide : ¬ ('[' : Char) = '\x22'), if_pos rfl, if_true,
              List.nil_append]
            rw [show skipWs (encodeItems (x :: xs') ++ ']' :: rest) =
              encodeItems (x :: xs') ++ ']' :: rest from skipWs_encodeItems_append x xs' _, hw]
            simp [hrb, hrec']
        | obj kvs =>
          cases kvs with
          | nil => simp [parseValue, encode, encodeMembers, skipWs, List.dropWhile_cons, isWs]
          | cons kv kvs' =>
            obtain ⟨k, v⟩ := kv
            have hmN : membersSize ((k, v) :: kvs') < N := by
              simp only [jsonSize] at hN
              omega
            have hmF : membersSize ((k, v) :: kvs') ≤ f := by
              simp only [jsonSize] at hfuel
              omega
            have hrec := (ih (membersSize ((k, v) :: kvs')) hmN).2.2 k v kvs' f rest le_rfl hmF
            obtain ⟨u, hu⟩ := encodeMembers_cons_ex k v kvs'
            have hw : encodeMembers ((k, v) :: kvs') ++ '\x7d' :: rest =
                '\x22' :: (u ++ '\x7d' :: rest) := by
              rw [hu]
              simp
            have hrec' : parseMembers f ('\x22' :: (u ++ '\x7d' :: rest)) =
                some ((k, v) :: kvs', rest) := by
              rw [← hw]
              exact hrec
            simp only [encode, List.cons_append, List.append_assoc, List.singleton_append,
              parseValue]
            rw [skipWs_cons_not_ws (by decide)]
            simp only [if_neg (by decide : ¬ ('\x7b' : Char) = 'n'),
              if_neg (by decide : ¬ ('\x7b' : Char) = 't'),
              if_neg (by decide : ¬ ('\x7b' : Char) = 'f'),
              if_neg (by decide : ¬ ('\x7b' : Char) = '\x22'),
              if_neg (by decide : ¬ ('\x7b' : Char) = '['), if_pos rfl, if_true,
              List.nil_append]
            rw [show skipWs (encodeMembers ((k, v) :: kvs') ++ '\x7d' :: rest) =
              encodeMembers ((k, v) :: kvs') ++ '\x7d' :: rest from
              skipWs_encodeMembers_append k v kvs' _, hw]
            simp [hrec']
    · intro x xs fuel rest hN hfuel
      have hposx := jsonSize_pos x
      have hpost := itemsSize_pos xs
      cases fuel with
      | zero =>
        simp only [itemsSize] at hfuel
        omega
      | succ f =>
        have hvN : jsonSize x < N := by
          simp only [itemsSize] at hN
          omega
        have hvF : jsonSize x ≤ f := by
          simp only [itemsSize] at hfuel
          omega
        cases xs with
        | nil =>
          have hv := (ih (jsonSize x) hvN).1 x f (']' :: rest) le_rfl hvF (numOk_rb x rest)
          simp only [encodeItems, parseItems]
          rw [hv]
          simp [skipWs_cons_not_ws (show isWs ']' = false by decide)]
        | cons y ys =>
          have hv := (ih (jsonSize x) hvN).1 x f
            (',' :: ' ' :: (encodeItems (y :: ys) ++ ']' :: rest)) le_rfl hvF (numOk_cm x _)
          have htN : itemsSize (y :: ys) < N := by
            simp only [itemsSize] at hN ⊢
            omega
          have htF : itemsSize (y :: ys) ≤ f := by
            simp only [itemsSize] at hfuel ⊢
            omega
          have ht := (ih (itemsSize (y :: ys)) htN).2.1 y ys f rest le_rfl htF
          simp only [encodeItems, List.cons_append, List.append_assoc, parseItems]
          rw [hv]
          simp [skipWs_cons_not_ws (show isWs ',' = false by decide), skipWs_space,
            skipWs_encodeItems_append, ht]
    · intro k v kvs fuel rest hN hfuel
      have hposv := jsonSize_pos v
      have hposm := membersSize_pos kvs
      cases fuel with
      | zero =>
        simp only [membersSize] at hfuel
        omega
      | succ f =>
        have hkf : k.data.length < f := by
          simp only [membersSize] at hfuel
          omega
        have hvN : jsonSize v < N := by
          simp only [membersSize] at hN
          omega
        have hvF : jsonSize v ≤ f := by
          simp only [membersSize] at hfuel
          omega
        cases kvs with
        | nil =>
          have hsb := parseStringBody_encode k.data f
            (':' :: ' ' :: (encode v ++ '\x7d' :: rest)) hkf
          have hv := (ih (jsonSize v) hvN).1 v f ('\x7d' :: rest) le_rfl hvF (numOk_cb v rest)
          simp [encodeMembers, encodeString, parseMembers, hsb, parseValue_cons_space, hv,
            skipWs_cons_not_ws (show isWs ':' = false by decide),
            skipWs_cons_not_ws (show isWs '\x7d' = false by decide), stringMk_data]
        | cons m ms =>
          obtain ⟨k2, v2⟩ := m
          have hsb := parseStringBody_encode k.data f
            (':' :: ' ' :: (encode v ++ ',' :: ' ' ::
              (encodeMembers ((k2, v2) :: ms) ++ '\x7d' :: rest))) hkf
          have hv := (ih (jsonSize v) hvN).1 v f
            (',' :: ' ' :: (encodeMembers ((k2, v2) :: ms) ++ '\x7d' :: rest)) le_rfl hvF
            (numOk_cm v _)
          have htN : membersSize ((k2, v2) :: ms) < N := by
            simp only [membersSize] at hN ⊢
            omega
          have htF : membersSize ((k2, v2) :: ms) ≤ f := by
            simp only [membersSize] at hfuel ⊢
            omega
          have ht := (ih (membersSize ((k2, v2) :: ms)) htN).2.2 k2 v2 ms f rest le_rfl htF
          simp [encodeMembers, encodeString, parseMembers, hsb, parseValue_cons_space, hv,
            skipWs_cons_not_ws (show isWs ':' = false by decide),
            skipWs_cons_not_ws (show isWs ',' = false by decide),
            skipWs_space, skipWs_encodeMembers_append, ht, stringMk_data]

/-- The codec round trip performed by every write/read pair on a `metadata`
column: what `json.dumps` stored, `json.loads` returns unchanged. -/
theorem loads_dumps (j : Json) : loads (dumps j) = some j := by
  have hsize := (size_le_double (jsonSize j)).1 j le_rfl
  have hmain := (parse_encode_main (jsonSize j)).1 j (2 * (encode j).length + 2) [] le_rfl
    (by omega) (numOk_nil j)
  rw [List.append_nil] at hmain
  have hdata : (dumps j).data = encode j := rfl
  simp only [loads, hdata, hmain]
  simp [skipWs]

theorem dumps_injective {a b : Json} (h : dumps a = dumps b) : a = b := by
  have ha := loads_dumps a
  rw [h, loads_dumps b] at ha
  exact (Option.some.inj ha).symm

instance : DecidableEq Json := fun a b =>
  if h : dumps a = dumps b then Decidable.isTrue (dumps_injective h)
  else Decidable.isFalse (fun heq => h (congrArg dumps heq))

/-! ## Timestamps

Wall-clock instants are natural numbers: seconds since the Unix epoch (UTC),
with a separate microsecond component where Python reads the clock.
`sqliteTimestamp` is the text SQLite's `CURRENT_TIMESTAMP` stores — UTC,
`YYYY-MM-DD HH:MM:SS`, one value per SQL statement.  `pyIsoTimestamp` is the
text `datetime.now().isoformat()` produces for the dictionaries the Python
methods return — the local wall clock (the seconds argument is the local
clock reading), `T` separator, microseconds printed when nonzero. -/

/-- Civil date and time (year, month, day, hour, minute, second) from epoch
seconds, days translated with the standard Gregorian algorithm. -/
def civilFromEpoch (t : Nat) : Nat × Nat × Nat × Nat × Nat × Nat :=
  let days := t / 86400
  let secs := t % 86400
  let z := days + 719468
  let era := z / 146097
  let doe := z % 146097
  let yoe := (doe - doe / 1460 + doe / 36524 - doe / 146096) / 365
  let y := yoe + era * 400
  let doy := doe - (365 * yoe + yoe / 4 - yoe / 100)
  let mp := (5 * doy + 2) / 153
  let d := doy - (153 * mp + 2) / 5 + 1
  let m := if mp < 10 then mp + 3 else mp - 9
  let year := if m ≤ 2 then y + 1 else y
  (year, m, d, secs / 3600, secs % 3600 / 60, secs % 60)

/-- Two-digit zero-padded field. -/
def pad2 (n : Nat) : List Char :=
  if n < 10 then '0' :: natDigits n else natDigits n

/-- Microseconds, zero-padded to six digits. -/
def pad6 (n : Nat) : List Char :=
  List.replicate (6 - (natDigits n).length) '0' ++ natDigits n

/-- Text stored by SQLite's `CURRENT_TIMESTAMP` default and by the
`SET updated_at = CURRENT_TIMESTAMP` statements: `YYYY-MM-DD HH:MM:SS`. -/
def sqliteTimestamp (t : Nat) : String :=
  let c := civilFromEpoch t
  String.mk (natDigits c.1 ++ '-' :: pad2 c.2.1 ++ '-' :: pad2 c.2.2.1 ++
    ' ' :: pad2 c.2.2.2.1 ++ ':' :: pad2 c.2.2.2.2.1 ++ ':' :: pad2 c.2.2.2.2.2)

/-- Text produced by `datetime.now().isoformat()`: `YYYY-MM-DDTHH:MM:SS` with
`.ffffff` appended exactly when the microsecond field is nonzero. -/
def pyIsoTimestamp (sec micro : Nat) : String :=
  let c := civilFromEpoch sec
  String.mk (natDigits c.1 ++ '-' :: pad2 c.2.1 ++ '-' :: pad2 c.2.2.1 ++
    'T' :: pad2 c.2.2.2.1 ++ ':' :: pad2 c.2.2.2.2.1 ++ ':' :: pad2 c.2.2.2.2.2 ++
    (if micro = 0 then [] else '.' :: pad6 micro))

example : sqliteTimestamp 0 = "1970-01-01 00:00:00" := by decide

example : sqliteTimestamp 1760227199 = "2025-10-11 23:59:59" := by decide

example : sqliteTimestamp 1709209845 = "2024-02-29 12:30:45" := by decide

example : sqliteTimestamp 951866096 = "2000-02-29 23:14:56" := by decide

example : sqliteTimestamp 4107542399 = "2100-02-28 23:59:59" := by decide

example : pyIsoTimestamp 0 0 = "1970-01-01T00:00:00" := by decide

example : pyIsoTimestamp 0 1500 = "1970-01-01T00:00:00.001500" := by decide

/-! ## The database state and `ConversationDatabase`

`DBState` is the content of the two tables plus the `sqlite_sequence` entry
behind `AUTOINCREMENT` (`seq`: the largest message id ever allocated).  Each
method of `ConversationDatabase` opens a fresh connection, runs its SQL
statements inside the connection context manager's transaction and commits;
the model threads the state explicitly.  Every `CURRENT_TIMESTAMP` read and
every `datetime.now()` read is an explicit parameter (one per occurrence in
the source).  Returned Python dictionaries are modelled by record types;
`Option Json` metadata on read paths uses `none` for the fault `json.loads`
raises on undecodable text. -/

structure ConvRow where
  id : String
  title : String
  created_at : String
  updated_at : String
  metadata : String
deriving DecidableEq

structure MsgRow where
  id : Nat
  conversation_id : String
  role : String
  content : String
  timestamp : String
  metadata : String
deriving DecidableEq

structure DBState where
  convs : List ConvRow
  msgs : List MsgRow
  seq : Nat
deriving DecidableEq

/-- The state `_init_db` produces on a fresh file. -/
def emptyDB : DBState :=
  ⟨[], [], 0⟩

/-- Dictionary returned by `create_conversation`. -/
structure ConvRecord where
  id : String
  title : String
  created_at : String
  updated_at : String
  metadata : Json
deriving DecidableEq

/-- Dictionary returned by `get_conversation`. -/
structure ConvGetRecord where
  id : String
  title : String
  created_at : String
  updated_at : String
  metadata : Option Json
deriving DecidableEq

/-- Dictionary returned by `add_message`. -/
structure MsgRecord where
  id : Nat
  conversation_id : String
  role : String
  content : String
  timestamp : String
  metadata : Json
deriving DecidableEq

/-- Dictionary in the list returned by `get_messages`. -/
structure MsgGetRecord where
  id : Nat
  conversation_id : String
  role : String
  content : String
  timestamp : String
  metadata : Option Json
deriving DecidableEq

/-- Dictionary in the list returned by `get_all_conversations`. -/
structure ConvListRecord where
  id : String
  title : String
  created_at : String
  updated_at : String
  message_count : Nat
  metadata : Option Json
deriving DecidableEq

inductive DBErr where
  | duplicateKey
deriving DecidableEq

/-- Evaluation of `json.loads(row["metadata"]) if row["metadata"] else \x7b\x7d` on read
paths; `none` is the `json.loads` fault on undecodable text. -/
def readMeta (raw : String) : Option Json :=
  if raw.data.isEmpty then some (Json.obj [])
  else loads raw

/-- Is a conversation row with this primary key present? -/
def convExists (s : DBState) (cid : String) : Bool :=
  s.convs.any (fun c => c.id = cid)

/-- The default applied by the Python signatures: `metadata or \x7b\x7d`. -/
def metaOrEmpty (metadata : Option Json) : Json :=
  metadata.getD (Json.obj [])

/-- Statement `INSERT INTO conversations (id, title, metadata) VALUES (?, ?, ?)`:
the `PRIMARY KEY` constraint on `id` makes the engine reject a duplicate
(an `IntegrityError` in Python); `created_at` and `updated_at` take their
`DEFAULT CURRENT_TIMESTAMP`, one clock value for the whole statement. -/
def insertConversationStmt (cid title metaText : String) (now : Nat) (s : DBState) :
    Except DBErr DBState :=
  if convExists s cid then .error .duplicateKey
  else .ok { s with
    convs := s.convs ++ [⟨cid, title, sqliteTimestamp now, sqliteTimestamp now, metaText⟩] }

/-- Method `create_conversation`: one `INSERT` in the connection's transaction, then
commit, then a dictionary built in Python with two fresh `datetime.now()`
readings (`ret₁`, `ret₂` as local-clock second/microsecond pairs).  On an
`IntegrityError` the context manager rolls back and the exception propagates
to the caller, so the persisted state is unchanged. -/
def create_conversation (s : DBState) (conversation_id : String) (title : String)
    (metadata : Option Json) (tIns : Nat) (ret₁ ret₂ : Nat × Nat) :
    Except DBErr ConvRecord × DBState :=
  match insertConversationStmt conversation_id title (dumps (metaOrEmpty metadata)) tIns s with
  | .error e => (.error e, s)
  | .ok s' =>
    (.ok { id := conversation_id, title := title,
           created_at := pyIsoTimestamp ret₁.1 ret₁.2,
           updated_at := pyIsoTimestamp ret₂.1 ret₂.2,
           metadata := metaOrEmpty metadata }, s')

/-- Method `get_conversation`: `SELECT * FROM conversations WHERE id = ?` with
`fetchone` — the first matching row in table order (at most one, by the
primary key), `None` when absent. -/
def get_conversation (s : DBState) (cid : String) : Option ConvGetRecord :=
  match s.convs.find? (fun c => c.id = cid) with
  | none => none
  | some r => some ⟨r.id, r.title, r.created_at, r.updated_at, readMeta r.metadata⟩

/-- The rows `WHERE conversation_id = ?` selects, in table order. -/
def messagesFor (s : DBState) (cid : String) : List MsgRow :=
  s.msgs.filter (fun m => m.conversation_id = cid)

/-- Largest message rowid present in the table. -/
def maxMsgId (l : List MsgRow) : Nat :=
  l.foldr (fun m acc => max m.id acc) 0

/-- Semantics of `AUTOINCREMENT`: the new rowid is one more than the larger of the
`sqlite_sequence` entry and the largest rowid in the table, so ids are never
reused even after deletes. -/
def nextMessageId (s : DBState) : Nat :=
  max s.seq (maxMsgId s.msgs) + 1

/-- Statement `INSERT INTO messages (conversation_id, role, content, metadata)`:
`timestamp` takes its `DEFAULT CURRENT_TIMESTAMP` for this statement, the id
comes from `AUTOINCREMENT`. -/
def insertMessageStmt (cid role content metaText : String) (now : Nat) (s : DBState) : DBState :=
  { s with
    msgs := s.msgs ++ [⟨nextMessageId s, cid, role, content, sqliteTimestamp now, metaText⟩],
    seq := nextMessageId s }

/-- Statement `UPDATE conversations SET updated_at = CURRENT_TIMESTAMP WHERE id = ?`:
this statement's own clock reading. -/
def touchConversationStmt (cid : String) (now : Nat) (s : DBState) : DBState :=
  { s with convs := s.convs.map (fun c =>
      if c.id = cid then { c with updated_at := sqliteTimestamp now } else c) }

/-- Method `add_message`: the message `INSERT` (clock `tIns`), `cursor.lastrowid`,
the conversation `UPDATE` (clock `tUpd`), commit, then the returned
dictionary with a fresh `datetime.now()` reading `ret`. -/
def add_message (s : DBState) (conversation_id role content : String) (metadata : Option Json)
    (tIns tUpd : Nat) (ret : Nat × Nat) : MsgRecord × DBState :=
  let s₁ := insertMessageStmt conversation_id role content (dumps (metaOrEmpty metadata)) tIns s
  let message_id := s₁.seq
  let s₂ := touchConversationStmt conversation_id tUpd s₁
  ({ id := message_id, conversation_id := conversation_id, role := role, content := content,
     timestamp := pyIsoTimestamp ret.1 ret.2, metadata := metaOrEmpty metadata }, s₂)

/-- The two statements of `add_message`'s transaction, in order. -/
def addMessageStmts (conversation_id role content : String) (metadata : Option Json)
    (tIns tUpd : Nat) : List (DBState → DBState) :=
  [insertMessageStmt conversation_id role content (dumps (metaOrEmpty metadata)) tIns,
   touchConversationStmt conversation_id tUpd]

/-- What the store durably holds after a transaction of pure statements:
if the operation raises after `k` statements, before `conn.commit()`
completed (`abortedAfter = some k`), the `sqlite3` connection context
manager rolls the open transaction back and nothing is persisted; after a
completed commit (`abortedAfter = none`) every statement's effect is. -/
def txnPersisted (s : DBState) (stmts : List (DBState → DBState)) :
    Option Nat → DBState
  | some _ => s
  | none => stmts.foldl (fun a f => f a) s

/-- Method `delete_conversation`: `DELETE FROM conversations WHERE id = ?`, returning
`cursor.rowcount > 0`.  The connection has `PRAGMA foreign_keys` at its
default OFF (the code never enables it), so the `ON DELETE CASCADE` clause of
the schema is not enforced and the `messages` table is untouched. -/
def delete_conversation (s : DBState) (cid : String) : Bool × DBState :=
  let remaining := s.convs.filter (fun c => c.id ≠ cid)
  (decide (remaining.length < s.convs.length), { s with convs := remaining })

/-- Method `update_conversation_title`: `UPDATE conversations SET title = ?,
updated_at = CURRENT_TIMESTAMP WHERE id = ?`, returning
`cursor.rowcount > 0` (whether any row matched). -/
def update_conversation_title (s : DBState) (cid title : String) (now : Nat) : Bool × DBState :=
  (s.convs.any (fun c => c.id = cid),
   { s with convs := s.convs.map (fun c =>
      if c.id = cid then { c with title := title, updated_at := sqliteTimestamp now } else c) })

/-! ## Query results

SQLite's `ORDER BY` sorts on the given keys and nothing more: the relative
order of rows with equal keys is unspecified.  A query's outcome is therefore
a predicate on output lists — a list is a permitted result exactly when it is
a permutation of the selected rows that is nondecreasing (respectively
nonincreasing) on the sort key.  `LIMIT n` keeps the first `n` rows of
whichever sorted order the engine produced. -/

/-- Every row's `timestamp` is `≤` (BINARY text order) every later row's. -/
def sortedByTsAsc : List MsgRow → Bool
  | [] => true
  | m :: rest => rest.all (fun m2 => strLe m.timestamp m2.timestamp) && sortedByTsAsc rest

/-- Every row's `updated_at` is `≥` every later row's. -/
def sortedByUpdDesc : List (ConvRow × Nat) → Bool
  | [] => true
  | p :: rest => rest.all (fun q => strLe q.1.updated_at p.1.updated_at) && sortedByUpdDesc rest

/-- The outputs `SELECT * FROM messages WHERE conversation_id = ?
ORDER BY timestamp ASC` may produce. -/
def get_messages_ok (s : DBState) (cid : String) (out : List MsgRow) : Prop :=
  out.Perm (messagesFor s cid) ∧ sortedByTsAsc out = true

/-- Row-to-dictionary conversion performed by `get_messages`. -/
def msgGetRecordOf (m : MsgRow) : MsgGetRecord :=
  ⟨m.id, m.conversation_id, m.role, m.content, m.timestamp, readMeta m.metadata⟩

/-- A conversation row with its `COUNT(m.id)` aggregate from the left join
on `c.id = m.conversation_id` (0 when no message matches). -/
def convCount (s : DBState) (c : ConvRow) : ConvRow × Nat :=
  (c, (messagesFor s c.id).length)

/-- The outputs `SELECT c.*, COUNT(m.id) ... LEFT JOIN ... GROUP BY c.id
ORDER BY c.updated_at DESC LIMIT ?` may produce (conversation ids are unique
by the primary key, so each row is its own group). -/
def get_all_conversations_ok (s : DBState) (limit : Nat) (out : List (ConvRow × Nat)) : Prop :=
  ∃ full, full.Perm (s.convs.map (convCount s)) ∧ sortedByUpdDesc full = true ∧
    out = full.take limit

/-- Row-to-dictionary conversion performed by `get_all_conversations`. -/
def convListRecordOf (p : ConvRow × Nat) : ConvListRecord :=
  ⟨p.1.id, p.1.title, p.1.created_at, p.1.updated_at, p.2, readMeta p.1.metadata⟩

/-! ## Operation traces

`Op` is one call to a mutating method of the store, together with the clock
readings that call observes; `step`/`run` execute a sequence of such calls,
as the HTTP layer does across requests. -/

inductive Op where
  | create (conversation_id title : String) (metadata : Option Json) (tIns : Nat)
      (ret₁ ret₂ : Nat × Nat)
  | addMsg (conversation_id role content : String) (metadata : Option Json)
      (tIns tUpd : Nat) (ret : Nat × Nat)
  | delete (conversation_id : String)
  | updateTitle (conversation_id title : String) (now : Nat)

/-- Execute one store call, keeping the persisted state. -/
def step (s : DBState) : Op → DBState
  | .create cid title md tIns r₁ r₂ => (create_conversation s cid title md tIns r₁ r₂).2
  | .addMsg cid role content md tIns tUpd r => (add_message s cid role content md tIns tUpd r).2
  | .delete cid => (delete_conversation s cid).2
  | .updateTitle cid title now => (update_conversation_title s cid title now).2

/-- Execute a sequence of store calls. -/
def run (s : DBState) (ops : List Op) : DBState :=
  ops.foldl step s

/-! ## Helper lemmas about the model -/

theorem charsLe_eq_false_of_charsLt :
    ∀ l₁ l₂, charsLt l₁ l₂ = true → charsLe l₂ l₁ = false := by
  intro l₁
  induction l₁ with
  | nil =>
    intro l₂ h
    cases l₂ with
    | nil => simp [charsLt] at h
    | cons b bs => rfl
  | cons a as ih =>
    intro l₂ h
    cases l₂ with
    | nil => simp [charsLt] at h
    | cons b bs =>
      simp only [charsLt] at h
      simp only [charsLe]
      by_cases hab : a.toNat < b.toNat
      · simp [hab, Nat.lt_asymm hab]
      · by_cases hba : b.toNat < a.toNat
        · simp [hab, hba] at h
        · simp only [hab, hba, if_neg, if_false] at h ⊢
          simp [hab, hba, ih bs h]

theorem strLe_eq_false_of_strLt {a b : String} (h : strLt a b = true) :
    strLe b a = false :=
  charsLe_eq_false_of_charsLt a.data b.data h

theorem find_append_last {α} (l : List α) (x : α) (p : α → Bool)
    (hl : ∀ y ∈ l, p y = false) (hx : p x = true) : (l ++ [x]).find? p = some x := by
  induction l with
  | nil => simp [List.find?, hx]
  | cons a as ih =>
    have ha : p a = false := hl a (by simp)
    simp only [List.cons_append, List.find?, ha]
    exact ih (fun y hy => hl y (by simp [hy]))

theorem dumps_data_ne_nil (j : Json) : (dumps j).data ≠ [] := by
  obtain ⟨c, t, hct, -⟩ := encode_cons j
  show encode j ≠ []
  rw [hct]
  simp

theorem readMeta_dumps (j : Json) : readMeta (dumps j) = some j := by
  unfold readMeta
  rw [if_neg (by simpa using dumps_data_ne_nil j)]
  exact loads_dumps j

theorem perm_two {α} {l : List α} {a b : α} (h : l.Perm [a, b]) :
    l = [a, b] ∨ l = [b, a] := by
  have hlen : l.length = 2 := h.length_eq
  match l, hlen with
  | [x, y], _ =>
    have hx : x ∈ [a, b] := h.subset (by simp)
    simp at hx
    rcases hx with rfl | rfl
    · left
      have := h.cons_inv
      simp only [List.singleton_perm] at this
      rw [this]
    · right
      have hswap : ([x, y] : List α).Perm [x, a] := h.trans (List.Perm.swap x a [])
      have := hswap.cons_inv
      simp only [List.singleton_perm] at this
      rw [this]

theorem mem_le_maxMsgId {m : MsgRow} : ∀ {l : List MsgRow}, m ∈ l → m.id ≤ maxMsgId l := by
  intro l
  induction l with
  | nil => intro h; simp at h
  | cons x xs ih =>
    intro h
    simp only [List.mem_cons] at h
    simp only [maxMsgId, List.foldr]
    rcases h with rfl | h
    · omega
    · have := ih h
      simp only [maxMsgId] at this
      omega

theorem nextMessageId_gt_mem {s : DBState} {m : MsgRow} (h : m ∈ s.msgs) :
    m.id < nextMessageId s := by
  have := mem_le_maxMsgId h
  simp only [nextMessageId]
  omega

theorem step_seq_mono (s : DBState) (op : Op) : s.seq ≤ (step s op).seq := by
  cases op with
  | create cid title md tIns r₁ r₂ =>
    simp only [step, create_conversation]
    cases hins : insertConversationStmt cid title (dumps (metaOrEmpty md)) tIns s with
    | error e => simp
    | ok s' =>
      simp only [insertConversationStmt] at hins
      split at hins
      · cases hins
      · cases hins
        simp
  | addMsg cid role content md tIns tUpd r =>
    simp only [step, add_message, touchConversationStmt, insertMessageStmt, nextMessageId]
    omega
  | delete cid => simp [step, delete_conversation]
  | updateTitle cid title now => simp [step, update_conversation_title]

theorem run_seq_mono (s : DBState) (ops : List Op) : s.seq ≤ (run s ops).seq := by
  induction ops generalizing s with
  | nil => simp [run]
  | cons op ops ih =>
    have h₁ := step_seq_mono s op
    have h₂ := ih (step s op)
    simp only [run, List.foldl] at h₂ ⊢
    omega

theorem step_msgs_of_not_add (s : DBState) (op : Op)
    (h : ∀ cid role content md tIns tUpd r, op ≠ .addMsg cid role content md tIns tUpd r) :
    (step s op).msgs = s.msgs := by
  cases op with
  | create cid title md tIns r₁ r₂ =>
    simp only [step, create_conversation]
    cases hins : insertConversationStmt cid title (dumps (metaOrEmpty md)) tIns s with
    | error e => simp
    | ok s' =>
      simp only [insertConversationStmt] at hins
      split at hins
      · cases hins
      · cases hins
        simp
  | addMsg cid role content md tIns tUpd r => exact absurd rfl (h cid role content md tIns tUpd r)
  | delete cid => simp [step, delete_conversation]
  | updateTitle cid title now => simp [step, update_conversation_title]

theorem add_message_msgs (s : DBState) (cid role content : String) (md : Option Json)
    (tIns tUpd : Nat) (ret : Nat × Nat) :
    (add_message s cid role content md tIns tUpd ret).2.msgs =
      s.msgs ++ [⟨nextMessageId s, cid, role, content, sqliteTimestamp tIns,
        dumps (metaOrEmpty md)⟩] := by
  simp [add_message, touchConversationStmt, insertMessageStmt]

theorem add_message_ret_id (s : DBState) (cid role content : String) (md : Option Json)
    (tIns tUpd : Nat) (ret : Nat × Nat) :
    (add_message s cid role content md tIns tUpd ret).1.id = nextMessageId s :=
  rfl

theorem add_message_seq (s : DBState) (cid role content : String) (md : Option Json)
    (tIns tUpd : Nat) (ret : Nat × Nat) :
    (add_message s cid role content md tIns tUpd ret).2.seq = nextMessageId s :=
  rfl

theorem messagesFor_add_same (s : DBState) (cid role content : String) (md : Option Json)
    (tIns tUpd : Nat) (ret : Nat × Nat) :
    messagesFor (add_message s cid role content md tIns tUpd ret).2 cid =
      messagesFor s cid ++ [⟨nextMessageId s, cid, role, content, sqliteTimestamp tIns,
        dumps (metaOrEmpty md)⟩] := by
  simp [messagesFor, add_message_msgs, List.filter_append]

theorem all_take {α} (f : α → Bool) (l : List α) (n : Nat) (h : l.all f = true) :
    (l.take n).all f = true := by
  rw [List.all_eq_true] at h ⊢
  exact fun x hx => h x (List.mem_of_mem_take hx)

theorem sortedByUpdDesc_take (n : Nat) :
    ∀ l, sortedByUpdDesc l = true → sortedByUpdDesc (l.take n) = true := by
  induction n with
  | zero => intro l _; simp [sortedByUpdDesc]
  | succ k ih =>
    intro l h
    cases l with
    | nil => simpa using h
    | cons p rest =>
      simp only [sortedByUpdDesc, Bool.and_eq_true] at h
      simp only [List.take_succ_cons, sortedByUpdDesc, Bool.and_eq_true]
      exact ⟨all_take _ _ _ h.1, ih rest h.2⟩

theorem sortedByTsAsc_unique :
    ∀ (l₁ l₂ : List MsgRow), l₁.Perm l₂ → sortedByTsAsc l₁ = true → sortedByTsAsc l₂ = true →
      (l₁.map (fun m => m.timestamp)).Nodup → l₁ = l₂ := by
  intro l₁
  induction l₁ with
  | nil =>
    intro l₂ hperm _ _ _
    exact (List.nil_perm.mp hperm).symm
  | cons a as ih =>
    intro l₂ hperm h₁ h₂ hnd
    cases l₂ with
    | nil => exact absurd (List.perm_nil.mp hperm) (by simp)
    | cons b bs =>
      by_cases hab : a = b
      · subst hab
        have htail := hperm.cons_inv
        simp only [sortedByTsAsc, Bool.and_eq_true] at h₁ h₂
        have hndtail : (as.map (fun m => m.timestamp)).Nodup := by
          simp only [List.map_cons, List.nodup_cons] at hnd
          exact hnd.2
        rw [ih bs htail h₁.2 h₂.2 hndtail]
      · have hamem : a ∈ b :: bs := hperm.subset (by simp)
        have hbmem : b ∈ a :: as := hperm.symm.subset (by simp)
        have ha2 : a ∈ bs := by
          rcases List.mem_cons.mp hamem with h | h
          · exact absurd h hab
          · exact h
        have hb1 : b ∈ as := by
          rcases List.mem_cons.mp hbmem with h | h
          · exact absurd h.symm hab
          · exact h
        simp only [sortedByTsAsc, Bool.and_eq_true, List.all_eq_true] at h₁ h₂
        have h₁b := h₁.1 b hb1
        have h₂a := h₂.1 a ha2
        have hts : a.timestamp = b.timestamp := strLe_antisymm h₁b h₂a
        exfalso
        simp only [List.map_cons, List.nodup_cons] at hnd
        exact hnd.1 (by
          rw [hts]
          exact List.mem_map.mpr ⟨b, hb1, rfl⟩)

/-! ## The claims -/

/-- C1 (code bug): the schema declares `ON DELETE CASCADE`, and
`delete_conversation`'s docstring promises to delete "a conversation and all
its messages", but the `sqlite3` connections never execute
`PRAGMA foreign_keys = ON`, so the cascade is never enforced.  Concretely:
create a conversation, add one message, delete the conversation — the
conversation row is gone and `delete` reports `True`, yet the message row
whose `conversation_id` references the deleted conversation persists as an
orphan, and `get_messages` (whose every permitted output is a permutation of
`messagesFor`) cannot return the empty list. -/
theorem c1_delete_leaves_orphan_messages :
    (delete_conversation
      (add_message
        (create_conversation emptyDB "c1" "First" none 0 (0, 0) (0, 0)).2
        "c1" "human" "hi" none 1 1 (1, 0)).2
      "c1").1 = true ∧
    (delete_conversation
      (add_message
        (create_conversation emptyDB "c1" "First" none 0 (0, 0) (0, 0)).2
        "c1" "human" "hi" none 1 1 (1, 0)).2
      "c1").2.convs = [] ∧
    messagesFor
      (delete_conversation
        (add_message
          (create_conversation emptyDB "c1" "First" none 0 (0, 0) (0, 0)).2
          "c1" "human" "hi" none 1 1 (1, 0)).2
        "c1").2 "c1" ≠ [] ∧
    ¬ get_messages_ok
      (delete_conversation
        (add_message
          (create_conversation emptyDB "c1" "First" none 0 (0, 0) (0, 0)).2
          "c1" "human" "hi" none 1 1 (1, 0)).2
        "c1").2 "c1" [] := by
  refine ⟨by decide, by decide, by decide, ?_⟩
  intro hok
  have := hok.1
  revert this
  decide

/-- C8 (code bug): for an id with no conversation row the three operations
behave as claimed — `get_conversation` returns `None`,
`update_conversation_title` returns `False` and creates nothing,
`delete_conversation` returns `False`, none of them raising — but
`get_messages` is *not* always empty: an id whose conversation was deleted
can still own orphaned message rows (no cascade, see C1), which the query
returns. -/
theorem c8_missing_id_is_normal_return_but_orphans_remain :
    get_conversation
      (delete_conversation
        (add_message
          (create_conversation emptyDB "conv-a" "T" none 2 (2, 0) (2, 0)).2
          "conv-a" "ai" "hello" none 3 3 (3, 0)).2
        "conv-a").2 "conv-a" = none ∧
    update_conversation_title
      (delete_conversation
        (add_message
          (create_conversation emptyDB "conv-a" "T" none 2 (2, 0) (2, 0)).2
          "conv-a" "ai" "hello" none 3 3 (3, 0)).2
        "conv-a").2 "conv-a" "x" 4 =
      (false,
        (delete_conversation
          (add_message
            (create_conversation emptyDB "conv-a" "T" none 2 (2, 0) (2, 0)).2
            "conv-a" "ai" "hello" none 3 3 (3, 0)).2
          "conv-a").2) ∧
    delete_conversation
      (delete_conversation
        (add_message
          (create_conversation emptyDB "conv-a" "T" none 2 (2, 0) (2, 0)).2
          "conv-a" "ai" "hello" none 3 3 (3, 0)).2
        "conv-a").2 "conv-a" =
      (false,
        (delete_conversation
          (add_message
            (create_conversation emptyDB "conv-a" "T" none 2 (2, 0) (2, 0)).2
            "conv-a" "ai" "hello" none 3 3 (3, 0)).2
          "conv-a").2) ∧
    messagesFor
      (delete_conversation
        (add_message
          (create_conversation emptyDB "conv-a" "T" none 2 (2, 0) (2, 0)).2
          "conv-a" "ai" "hello" none 3 3 (3, 0)).2
        "conv-a").2 "conv-a" ≠ [] := by
  exact ⟨by decide, by decide, by decide, by decide⟩

/-- C5: creating a conversation whose id already exists hits the
`PRIMARY KEY` constraint: the `INSERT` raises `IntegrityError`
(DuplicateKey), the context manager rolls the transaction back, the fault
propagates to the caller, and the persisted state — in particular the
existing row with all its fields — is exactly what it was. -/
theorem c5_duplicate_create_fails_and_preserves_state
    (s : DBState) (cid t : String) (md : Option Json) (tIns : Nat) (r₁ r₂ : Nat × Nat)
    (h : convExists s cid = true) :
    create_conversation s cid t md tIns r₁ r₂ = (.error .duplicateKey, s) := by
  simp [create_conversation, insertConversationStmt, h]

/-- Witness for C5 at a concrete store. -/
theorem c5_witness :
    convExists ⟨[⟨"dup", "T", "1970-01-01 00:00:09", "1970-01-01 00:00:09", "\x7b\x7d"⟩], [], 0⟩
      "dup" = true ∧
    create_conversation
      ⟨[⟨"dup", "T", "1970-01-01 00:00:09", "1970-01-01 00:00:09", "\x7b\x7d"⟩], [], 0⟩
      "dup" "U" none 9 (9, 0) (9, 0) =
      (.error .duplicateKey,
        ⟨[⟨"dup", "T", "1970-01-01 00:00:09", "1970-01-01 00:00:09", "\x7b\x7d"⟩], [], 0⟩) :=
  ⟨by decide,
    c5_duplicate_create_fails_and_preserves_state _ "dup" "U" none 9 (9, 0) (9, 0) (by decide)⟩

/-- C4: after a successful `create_conversation(id, t, m)`,
`get_conversation(id)` returns a record with the same title, with metadata
decoding back to exactly the document `m` (the `json.dumps`/`json.loads`
round trip), and with `updated_at` equal to `created_at` (both columns take
the same statement's `CURRENT_TIMESTAMP` default). -/
theorem c4_create_then_get_roundtrip
    (s : DBState) (cid t : String) (m : Json) (tIns : Nat) (r₁ r₂ : Nat × Nat)
    (h : convExists s cid = false) :
    ∃ g, get_conversation (create_conversation s cid t (some m) tIns r₁ r₂).2 cid = some g ∧
      g.title = t ∧ g.metadata = some m ∧ g.updated_at = g.created_at := by
  have hstate : (create_conversation s cid t (some m) tIns r₁ r₂).2 =
      { s with convs := s.convs ++
        [⟨cid, t, sqliteTimestamp tIns, sqliteTimestamp tIns, dumps m⟩] } := by
    simp [create_conversation, insertConversationStmt, h, metaOrEmpty]
  have hl : ∀ y ∈ s.convs, (decide (y.id = cid)) = false := by
    intro y hy
    simp only [convExists, List.any_eq_false] at h
    simpa using h y hy
  refine ⟨⟨cid, t, sqliteTimestamp tIns, sqliteTimestamp tIns, readMeta (dumps m)⟩, ?_, rfl,
    ?_, rfl⟩
  · rw [hstate]
    unfold get_conversation
    rw [show (({ s with convs := s.convs ++
        [⟨cid, t, sqliteTimestamp tIns, sqliteTimestamp tIns, dumps m⟩] } : DBState).convs) =
      s.convs ++ [⟨cid, t, sqliteTimestamp tIns, sqliteTimestamp tIns, dumps m⟩] from rfl]
    rw [find_append_last s.convs _ _ hl (by simp)]
  · exact readMeta_dumps m

/-- Witness for C4 at a concrete store. -/
theorem c4_witness :
    convExists emptyDB "w1" = false ∧
    ∃ g, get_conversation
        (create_conversation emptyDB "w1" "Hello" (some (Json.obj [("k", Json.str "v"),
          ("n", Json.num 3)])) 7 (7, 1) (7, 2)).2 "w1" = some g ∧
      g.title = "Hello" ∧ g.metadata = some (Json.obj [("k", Json.str "v"), ("n", Json.num 3)]) ∧
      g.updated_at = g.created_at :=
  ⟨by decide,
    c4_create_then_get_roundtrip emptyDB "w1" "Hello"
      (Json.obj [("k", Json.str "v"), ("n", Json.num 3)]) 7 (7, 1) (7, 2) (by decide)⟩

/-- C10: `update_conversation_title` touches nothing but the matching
conversation row's `title` and `updated_at`: positionally, every
conversation row keeps its `id`, `created_at` and `metadata`; rows with a
different id are untouched; the matching row becomes the same row with the
new title and this statement's `CURRENT_TIMESTAMP`; the messages table and
the autoincrement sequence are untouched; and the call reports `True`
because a row matched. -/
theorem c10_update_title_frame
    (s : DBState) (cid t : String) (now : Nat) (hmem : ∃ c ∈ s.convs, c.id = cid) :
    (update_conversation_title s cid t now).1 = true ∧
    (update_conversation_title s cid t now).2.msgs = s.msgs ∧
    (update_conversation_title s cid t now).2.seq = s.seq ∧
    List.Forall₂ (fun c c' =>
        c'.id = c.id ∧ c'.created_at = c.created_at ∧ c'.metadata = c.metadata ∧
        (c.id ≠ cid → c' = c) ∧
        (c.id = cid → c' = { c with title := t, updated_at := sqliteTimestamp now }))
      s.convs (update_conversation_title s cid t now).2.convs := by
  refine ⟨?_, rfl, rfl, ?_⟩
  · obtain ⟨c, hc, hid⟩ := hmem
    simp only [update_conversation_title, List.any_eq_true]
    exact ⟨c, hc, by simp [hid]⟩
  · show List.Forall₂ _ s.convs (s.convs.map _)
    induction s.convs with
    | nil => exact List.Forall₂.nil
    | cons c cs ih =>
      refine List.Forall₂.cons ?_ ih
      by_cases hid : c.id = cid
      · simp [hid]
      · simp [hid]

/-- Witness for C10 at a concrete store. -/
theorem c10_witness :
    (∃ c ∈ ([⟨"u1", "Old", "1970-01-01 00:00:00", "1970-01-01 00:00:00", "\x7b\x7d"⟩] :
        List ConvRow), c.id = "u1") ∧
    ((update_conversation_title
        ⟨[⟨"u1", "Old", "1970-01-01 00:00:00", "1970-01-01 00:00:00", "\x7b\x7d"⟩],
          [⟨1, "u1", "human", "hi", "1970-01-01 00:00:00", "\x7b\x7d"⟩], 1⟩
        "u1" "New" 5).1 = true ∧
      (update_conversation_title
        ⟨[⟨"u1", "Old", "1970-01-01 00:00:00", "1970-01-01 00:00:00", "\x7b\x7d"⟩],
          [⟨1, "u1", "human", "hi", "1970-01-01 00:00:00", "\x7b\x7d"⟩], 1⟩
        "u1" "New" 5).2.msgs =
        [⟨1, "u1", "human", "hi", "1970-01-01 00:00:00", "\x7b\x7d"⟩] ∧
      (update_conversation_title
        ⟨[⟨"u1", "Old", "1970-01-01 00:00:00", "1970-01-01 00:00:00", "\x7b\x7d"⟩],
          [⟨1, "u1", "human", "hi", "1970-01-01 00:00:00", "\x7b\x7d"⟩], 1⟩
        "u1" "New" 5).2.seq = 1 ∧
      List.Forall₂ (fun c c' =>
          c'.id = c.id ∧ c'.created_at = c.created_at ∧ c'.metadata = c.metadata ∧
          (c.id ≠ "u1" → c' = c) ∧
          (c.id = "u1" → c' = { c with title := "New", updated_at := sqliteTimestamp 5 }))
        [⟨"u1", "Old", "1970-01-01 00:00:00", "1970-01-01 00:00:00", "\x7b\x7d"⟩]
        (update_conversation_title
          ⟨[⟨"u1", "Old", "1970-01-01 00:00:00", "1970-01-01 00:00:00", "\x7b\x7d"⟩],
            [⟨1, "u1", "human", "hi", "1970-01-01 00:00:00", "\x7b\x7d"⟩], 1⟩
          "u1" "New" 5).2.convs) :=
  ⟨by decide,
    c10_update_title_frame
      ⟨[⟨"u1", "Old", "1970-01-01 00:00:00", "1970-01-01 00:00:00", "\x7b\x7d"⟩],
        [⟨1, "u1", "human", "hi", "1970-01-01 00:00:00", "\x7b\x7d"⟩], 1⟩
      "u1" "New" 5 (by decide)⟩

/-- C2 (counterexample): the query behind `get_messages` is
`ORDER BY timestamp ASC` with no further sort key, so for two messages added
within the same `CURRENT_TIMESTAMP` second the engine may return either
order: after two `add_message` calls in the same second, both orders — in
particular the one listing the *higher* id first — are permitted outputs,
so neither the claimed id tie-break nor determinism across calls holds. -/
theorem c2_tie_order_counterexample :
    get_messages_ok
      (add_message
        (add_message (create_conversation emptyDB "c2" "T" none 5 (5, 0) (5, 0)).2
          "c2" "human" "hi" none 5 5 (5, 0)).2
        "c2" "ai" "hello" none 5 5 (5, 0)).2
      "c2"
      [⟨2, "c2", "ai", "hello", "1970-01-01 00:00:05", "\x7b\x7d"⟩,
       ⟨1, "c2", "human", "hi", "1970-01-01 00:00:05", "\x7b\x7d"⟩] ∧
    get_messages_ok
      (add_message
        (add_message (create_conversation emptyDB "c2" "T" none 5 (5, 0) (5, 0)).2
          "c2" "human" "hi" none 5 5 (5, 0)).2
        "c2" "ai" "hello" none 5 5 (5, 0)).2
      "c2"
      [⟨1, "c2", "human", "hi", "1970-01-01 00:00:05", "\x7b\x7d"⟩,
       ⟨2, "c2", "ai", "hello", "1970-01-01 00:00:05", "\x7b\x7d"⟩] ∧
    ([⟨2, "c2", "ai", "hello", "1970-01-01 00:00:05", "\x7b\x7d"⟩,
      ⟨1, "c2", "human", "hi", "1970-01-01 00:00:05", "\x7b\x7d"⟩] :
        List MsgRow) ≠
      [⟨1, "c2", "human", "hi", "1970-01-01 00:00:05", "\x7b\x7d"⟩,
       ⟨2, "c2", "ai", "hello", "1970-01-01 00:00:05", "\x7b\x7d"⟩] ∧
    (1 : Nat) < 2 := by
  refine ⟨⟨by decide, by decide⟩, ⟨by decide, by decide⟩, by decide, by decide⟩

/-- C2 (amended): every permitted `get_messages` output is a
timestamp-nondecreasing permutation of the conversation's messages; the
order of messages sharing a timestamp is not specified.  When the stored
timestamps are pairwise distinct the output is uniquely determined, and in
particular two successive `add_message` calls whose `CURRENT_TIMESTAMP`
readings fall in different seconds read back as exactly those two records in
insertion order (ids ascending). -/
theorem c2_deterministic_when_timestamps_distinct :
    (∀ (s : DBState) (cid : String) (out₁ out₂ : List MsgRow),
        ((messagesFor s cid).map (fun m => m.timestamp)).Nodup →
        get_messages_ok s cid out₁ → get_messages_ok s cid out₂ → out₁ = out₂) ∧
    (∀ (s : DBState) (cid role₁ content₁ role₂ content₂ : String) (md₁ md₂ : Option Json)
        (t₁ u₁ : Nat) (r₁ : Nat × Nat) (t₂ u₂ : Nat) (r₂ : Nat × Nat) (out : List MsgRow),
        messagesFor s cid = [] →
        strLt (sqliteTimestamp t₁) (sqliteTimestamp t₂) = true →
        get_messages_ok
          (add_message (add_message s cid role₁ content₁ md₁ t₁ u₁ r₁).2
            cid role₂ content₂ md₂ t₂ u₂ r₂).2 cid out →
        ∃ m₁ m₂, out = [m₁, m₂] ∧ m₁.role = role₁ ∧ m₁.content = content₁ ∧
          m₁.timestamp = sqliteTimestamp t₁ ∧ m₂.role = role₂ ∧ m₂.content = content₂ ∧
          m₂.timestamp = sqliteTimestamp t₂ ∧ m₁.id < m₂.id) := by
  constructor
  · intro s cid out₁ out₂ hnd h₁ h₂
    have hperm : out₁.Perm out₂ := h₁.1.trans h₂.1.symm
    have hnd₁ : (out₁.map (fun m => m.timestamp)).Nodup := by
      have hm : (out₁.map (fun m => m.timestamp)).Perm
          ((messagesFor s cid).map (fun m => m.timestamp)) := h₁.1.map _
      exact hm.symm.nodup hnd
    exact sortedByTsAsc_unique out₁ out₂ hperm h₁.2 h₂.2 hnd₁
  · intro s cid role₁ content₁ role₂ content₂ md₁ md₂ t₁ u₁ r₁ t₂ u₂ r₂ out hempty hlt hok
    have hm₁ := messagesFor_add_same s cid role₁ content₁ md₁ t₁ u₁ r₁
    have hm₂ := messagesFor_add_same (add_message s cid role₁ content₁ md₁ t₁ u₁ r₁).2
      cid role₂ content₂ md₂ t₂ u₂ r₂
    rw [hm₁, hempty, List.nil_append] at hm₂
    have hperm := hok.1
    rw [hm₂] at hperm
    have hid : nextMessageId s < nextMessageId (add_message s cid role₁ content₁ md₁ t₁ u₁ r₁).2 := by
      have hseq := add_message_seq s cid role₁ content₁ md₁ t₁ u₁ r₁
      simp only [nextMessageId] at hseq ⊢
      omega
    rcases perm_two hperm with hout | hout
    · exact ⟨_, _, hout, rfl, rfl, rfl, rfl, rfl, rfl, hid⟩
    · exfalso
      rw [hout] at hok
      have hsorted := hok.2
      simp only [sortedByTsAsc, List.all_cons, List.all_nil, Bool.and_eq_true,
        List.all_eq_true] at hsorted
      have hle : strLe (sqliteTimestamp t₂) (sqliteTimestamp t₁) = true := hsorted.1.1
      rw [strLe_eq_false_of_strLt hlt] at hle
      exact Bool.noConfusion hle

/-- Witness for the amended C2 at a concrete store: two `add_message` calls
one clock second apart, whose unique permitted read-back is insertion
order. -/
theorem c2_witness :
    (messagesFor (create_conversation emptyDB "w2" "T" none 4 (4, 0) (4, 0)).2 "w2" = [] ∧
      strLt (sqliteTimestamp 5) (sqliteTimestamp 7) = true ∧
      get_messages_ok
        (add_message
          (add_message (create_conversation emptyDB "w2" "T" none 4 (4, 0) (4, 0)).2
            "w2" "human" "hi" none 5 5 (5, 0)).2
          "w2" "ai" "yo" none 7 7 (7, 0)).2 "w2"
        [⟨1, "w2", "human", "hi", "1970-01-01 00:00:05", "\x7b\x7d"⟩,
         ⟨2, "w2", "ai", "yo", "1970-01-01 00:00:07", "\x7b\x7d"⟩]) ∧
    (∃ m₁ m₂,
      ([⟨1, "w2", "human", "hi", "1970-01-01 00:00:05", "\x7b\x7d"⟩,
        ⟨2, "w2", "ai", "yo", "1970-01-01 00:00:07", "\x7b\x7d"⟩] : List MsgRow) = [m₁, m₂] ∧
      m₁.role = "human" ∧ m₁.content = "hi" ∧ m₁.timestamp = sqliteTimestamp 5 ∧
      m₂.role = "ai" ∧ m₂.content = "yo" ∧ m₂.timestamp = sqliteTimestamp 7 ∧ m₁.id < m₂.id) :=
  ⟨⟨by decide, by decide, by decide, by decide⟩,
    c2_deterministic_when_timestamps_distinct.2
      (create_conversation emptyDB "w2" "T" none 4 (4, 0) (4, 0)).2
      "w2" "human" "hi" "ai" "yo" none none 5 5 (5, 0) 7 7 (7, 0) _
      (by decide) (by decide) ⟨by decide, by decide⟩⟩

/-- C3 (counterexample): the message `INSERT` and the conversation `UPDATE`
are two SQL statements, and SQLite evaluates `CURRENT_TIMESTAMP` once per
statement; when the wall clock crosses a second boundary between them
(`tIns = 0`, `tUpd = 1`) the persisted conversation `updated_at` is one
second later than the new message's `timestamp`, so "updated_at equals the
new message's timestamp" does not hold of every execution. -/
theorem c3_two_clock_reads_counterexample :
    (add_message (create_conversation emptyDB "c3" "T" none 0 (0, 0) (0, 0)).2
        "c3" "human" "hi" none 0 1 (0, 0)).2.msgs.map (fun m => m.timestamp) =
      ["1970-01-01 00:00:00"] ∧
    (add_message (create_conversation emptyDB "c3" "T" none 0 (0, 0) (0, 0)).2
        "c3" "human" "hi" none 0 1 (0, 0)).2.convs.map (fun c => c.updated_at) =
      ["1970-01-01 00:00:01"] ∧
    ("1970-01-01 00:00:00" : String) ≠ "1970-01-01 00:00:01" := by
  refine ⟨by decide, by decide, by decide⟩

/-- C3 (amended): one `add_message` call inserts exactly one message row,
timestamped with the insert statement's clock, and sets the parent
conversation's `updated_at` to the update statement's clock — the two clock
readings coincide whenever both statements run within the same second, and
only then is the conversation's `updated_at` equal to the new message's
timestamp.  The two statements commit as one transaction: if the operation
fails before the commit completes, the connection context manager rolls
back and the persisted state is unchanged (neither effect is applied);
after the commit both are. -/
theorem c3_add_message_effects_and_atomicity
    (s : DBState) (cid role content : String) (md : Option Json) (tIns tUpd : Nat)
    (ret : Nat × Nat) :
    (add_message s cid role content md tIns tUpd ret).2.msgs =
      s.msgs ++ [⟨nextMessageId s, cid, role, content, sqliteTimestamp tIns,
        dumps (metaOrEmpty md)⟩] ∧
    (∀ c ∈ s.convs, c.id = cid →
      { c with updated_at := sqliteTimestamp tUpd } ∈
        (add_message s cid role content md tIns tUpd ret).2.convs) ∧
    (∀ c ∈ s.convs, c.id ≠ cid → c ∈ (add_message s cid role content md tIns tUpd ret).2.convs) ∧
    (∀ c ∈ (add_message s cid role content md tIns tUpd ret).2.convs, c.id = cid →
      c.updated_at = sqliteTimestamp tUpd) ∧
    (sqliteTimestamp tIns = sqliteTimestamp tUpd →
      ∀ c ∈ (add_message s cid role content md tIns tUpd ret).2.convs, c.id = cid →
        c.updated_at = sqliteTimestamp tIns) ∧
    (∀ k, txnPersisted s (addMessageStmts cid role content md tIns tUpd) (some k) = s) ∧
    txnPersisted s (addMessageStmts cid role content md tIns tUpd) none =
      (add_message s cid role content md tIns tUpd ret).2 := by
  have hconvs : (add_message s cid role content md tIns tUpd ret).2.convs =
      s.convs.map (fun c =>
        if c.id = cid then { c with updated_at := sqliteTimestamp tUpd } else c) := rfl
  refine ⟨add_message_msgs s cid role content md tIns tUpd ret, ?_, ?_, ?_, ?_, fun k => rfl, rfl⟩
  · intro c hc hid
    rw [hconvs]
    exact List.mem_map.mpr ⟨c, hc, by simp [hid]⟩
  · intro c hc hid
    rw [hconvs]
    exact List.mem_map.mpr ⟨c, hc, by simp [hid]⟩
  · intro c hc hid
    rw [hconvs] at hc
    obtain ⟨c₀, hc₀, heq⟩ := List.mem_map.mp hc
    by_cases h₀ : c₀.id = cid
    · rw [if_pos h₀] at heq
      rw [← heq]
    · rw [if_neg h₀] at heq
      rw [← heq] at hid
      exact absurd hid h₀
  · intro heq c hc hid
    rw [hconvs] at hc
    obtain ⟨c₀, hc₀, heqc⟩ := List.mem_map.mp hc
    by_cases h₀ : c₀.id = cid
    · rw [if_pos h₀] at heqc
      rw [← heqc, ← heq]
    · rw [if_neg h₀] at heqc
      rw [← heqc] at hid
      exact absurd hid h₀

/-- Witness for the amended C3 at a concrete store. -/
theorem c3_witness :
    ((⟨"c3w", "T", "1970-01-01 00:00:04", "1970-01-01 00:00:04", "\x7b\x7d"⟩ : ConvRow) ∈
      (⟨[⟨"c3w", "T", "1970-01-01 00:00:04", "1970-01-01 00:00:04", "\x7b\x7d"⟩], [], 0⟩ :
        DBState).convs ∧
      (⟨"c3w", "T", "1970-01-01 00:00:04", "1970-01-01 00:00:04", "\x7b\x7d"⟩ : ConvRow).id =
        "c3w") ∧
    (add_message
      ⟨[⟨"c3w", "T", "1970-01-01 00:00:04", "1970-01-01 00:00:04", "\x7b\x7d"⟩], [], 0⟩
      "c3w" "human" "hi" none 6 6 (6, 0)).2.msgs =
      [⟨1, "c3w", "human", "hi", sqliteTimestamp 6, dumps (metaOrEmpty none)⟩] ∧
    ({ (⟨"c3w", "T", "1970-01-01 00:00:04", "1970-01-01 00:00:04", "\x7b\x7d"⟩ : ConvRow) with
        updated_at := sqliteTimestamp 6 } ∈
      (add_message
        ⟨[⟨"c3w", "T", "1970-01-01 00:00:04", "1970-01-01 00:00:04", "\x7b\x7d"⟩], [], 0⟩
        "c3w" "human" "hi" none 6 6 (6, 0)).2.convs) :=
  ⟨⟨by decide, rfl⟩,
    by
      have h := (c3_add_message_effects_and_atomicity
        ⟨[⟨"c3w", "T", "1970-01-01 00:00:04", "1970-01-01 00:00:04", "\x7b\x7d"⟩], [], 0⟩
        "c3w" "human" "hi" none 6 6 (6, 0)).1
      simpa using h,
    (c3_add_message_effects_and_atomicity
      ⟨[⟨"c3w", "T", "1970-01-01 00:00:04", "1970-01-01 00:00:04", "\x7b\x7d"⟩], [], 0⟩
      "c3w" "human" "hi" none 6 6 (6, 0)).2.1
      ⟨"c3w", "T", "1970-01-01 00:00:04", "1970-01-01 00:00:04", "\x7b\x7d"⟩
      (by decide) rfl⟩

deriving instance DecidableEq for Except

/-- C6 (counterexample): the dictionaries returned by `create_conversation`
are not read back from the store: their timestamps come from fresh
`datetime.now().isoformat()` calls — local wall clock, `T` separator,
microsecond resolution — while the persisted row holds the `INSERT`
statement's UTC `CURRENT_TIMESTAMP` in `YYYY-MM-DD HH:MM:SS` form.  Even
with both clocks at the epoch the two strings differ, so the returned
`created_at` never equals the persisted one. -/
theorem c6_returned_timestamps_differ_from_persisted :
    (create_conversation emptyDB "conv-b" "Title" none 0 (0, 0) (0, 0)).1 =
      Except.ok ⟨"conv-b", "Title", "1970-01-01T00:00:00", "1970-01-01T00:00:00",
        Json.obj []⟩ ∧
    (create_conversation emptyDB "conv-b" "Title" none 0 (0, 0) (0, 0)).2.convs =
      [⟨"conv-b", "Title", "1970-01-01 00:00:00", "1970-01-01 00:00:00", "\x7b\x7d"⟩] ∧
    ("1970-01-01T00:00:00" : String) ≠ "1970-01-01 00:00:00" := by
  refine ⟨by decide, by decide, by decide⟩

/-- C6 (amended): the records returned by `create_conversation` and
`add_message` agree with the row each call persisted on every field except
the timestamps — same id (the store-assigned rowid for messages), same
title/role/content, and metadata whose stored text decodes back to the
returned document — while the returned timestamps are fresh
`datetime.now().isoformat()` readings taken after the commit, not the
persisted `CURRENT_TIMESTAMP` values. -/
theorem c6_returned_fields_match_persisted_except_timestamps :
    (∀ (s : DBState) (cid t : String) (md : Option Json) (tIns : Nat) (r₁ r₂ : Nat × Nat),
        convExists s cid = false →
        ∃ rec row, create_conversation s cid t md tIns r₁ r₂ =
            (Except.ok rec, { s with convs := s.convs ++ [row] }) ∧
          rec.id = row.id ∧ rec.title = row.title ∧ readMeta row.metadata = some rec.metadata ∧
          rec.created_at = pyIsoTimestamp r₁.1 r₁.2 ∧ rec.updated_at = pyIsoTimestamp r₂.1 r₂.2 ∧
          row.created_at = sqliteTimestamp tIns ∧ row.updated_at = sqliteTimestamp tIns) ∧
    (∀ (s : DBState) (cid role content : String) (md : Option Json) (tIns tUpd : Nat)
        (ret : Nat × Nat),
        ∃ mrec mrow, (add_message s cid role content md tIns tUpd ret).1 = mrec ∧
          (add_message s cid role content md tIns tUpd ret).2.msgs = s.msgs ++ [mrow] ∧
          mrec.id = mrow.id ∧ mrec.conversation_id = mrow.conversation_id ∧
          mrec.role = mrow.role ∧ mrec.content = mrow.content ∧
          readMeta mrow.metadata = some mrec.metadata ∧
          mrec.timestamp = pyIsoTimestamp ret.1 ret.2 ∧
          mrow.timestamp = sqliteTimestamp tIns) := by
  constructor
  · intro s cid t md tIns r₁ r₂ h
    refine ⟨⟨cid, t, pyIsoTimestamp r₁.1 r₁.2, pyIsoTimestamp r₂.1 r₂.2, metaOrEmpty md⟩,
      ⟨cid, t, sqliteTimestamp tIns, sqliteTimestamp tIns, dumps (metaOrEmpty md)⟩,
      ?_, rfl, rfl, readMeta_dumps _, rfl, rfl, rfl, rfl⟩
    simp [create_conversation, insertConversationStmt, h]
  · intro s cid role content md tIns tUpd ret
    exact ⟨⟨nextMessageId s, cid, role, content, pyIsoTimestamp ret.1 ret.2, metaOrEmpty md⟩,
      ⟨nextMessageId s, cid, role, content, sqliteTimestamp tIns, dumps (metaOrEmpty md)⟩,
      rfl, add_message_msgs s cid role content md tIns tUpd ret,
      rfl, rfl, rfl, rfl, readMeta_dumps _, rfl, rfl⟩

/-- Witness for the amended C6 at a concrete store. -/
theorem c6_witness :
    convExists emptyDB "w6" = false ∧
    (∃ rec row, create_conversation emptyDB "w6" "T" (some (Json.num 1)) 8 (8, 3) (8, 4) =
        (Except.ok rec, { emptyDB with convs := emptyDB.convs ++ [row] }) ∧
      rec.id = row.id ∧ rec.title = row.title ∧ readMeta row.metadata = some rec.metadata ∧
      rec.created_at = pyIsoTimestamp 8 3 ∧ rec.updated_at = pyIsoTimestamp 8 4 ∧
      row.created_at = sqliteTimestamp 8 ∧ row.updated_at = sqliteTimestamp 8) :=
  ⟨by decide,
    c6_returned_fields_match_persisted_except_timestamps.1 emptyDB "w6" "T"
      (some (Json.num 1)) 8 (8, 3) (8, 4) (by decide)⟩

/-- C7: every permitted `get_all_conversations` output is ordered by
`updated_at` descending, holds at most `limit` rows, annotates each
conversation with its exact message count (zero-message conversations
included — when the limit covers the store every conversation appears, with
count 0 if it has no messages); and on a store of three conversations with a
strictly most-recent one, `limit = 1` returns exactly that conversation. -/
theorem c7_list_conversations_ordered_capped_counted :
    (∀ (s : DBState) (n : Nat) (out : List (ConvRow × Nat)),
        get_all_conversations_ok s n out →
        sortedByUpdDesc out = true ∧ out.length ≤ n ∧
        (∀ p ∈ out, p.1 ∈ s.convs ∧ p.2 = (messagesFor s p.1.id).length) ∧
        (s.convs.length ≤ n → ∀ c ∈ s.convs, (c, (messagesFor s c.id).length) ∈ out)) ∧
    (∀ (s : DBState) (out : List (ConvRow × Nat)) (c₀ : ConvRow),
        s.convs.length = 3 → c₀ ∈ s.convs →
        (∀ c ∈ s.convs, c ≠ c₀ → strLt c.updated_at c₀.updated_at = true) →
        get_all_conversations_ok s 1 out →
        out = [(c₀, (messagesFor s c₀.id).length)]) := by
  constructor
  · rintro s n out ⟨full, hperm, hsort, rfl⟩
    refine ⟨sortedByUpdDesc_take n full hsort, ?_, ?_, ?_⟩
    · rw [List.length_take]
      exact Nat.min_le_left _ _
    · intro p hp
      have hpfull : p ∈ full := List.mem_of_mem_take hp
      have hpmap : p ∈ s.convs.map (convCount s) := hperm.subset hpfull
      obtain ⟨c, hc, rfl⟩ := List.mem_map.mp hpmap
      exact ⟨hc, rfl⟩
    · intro hlen c hc
      have hfull_len : full.length = s.convs.length := by
        rw [hperm.length_eq]
        simp
      rw [List.take_of_length_le (by omega)]
      exact hperm.mem_iff.mpr (List.mem_map.mpr ⟨c, hc, rfl⟩)
  · rintro s out c₀ hlen3 hc₀ hmax ⟨full, hperm, hsort, rfl⟩
    have hfl : full.length = 3 := by
      rw [hperm.length_eq]
      simp [hlen3]
    cases full with
    | nil => simp at hfl
    | cons q restF =>
      have hq : q ∈ s.convs.map (convCount s) := hperm.subset (by simp)
      obtain ⟨c₁, hc₁, hq1⟩ := List.mem_map.mp hq
      have htake : (q :: restF).take 1 = [q] := by simp
      rw [htake]
      by_cases hcc : c₁ = c₀
      · subst hcc
        rw [← hq1]
        rfl
      · exfalso
        have hc₀mem : convCount s c₀ ∈ q :: restF :=
          hperm.mem_iff.mpr (List.mem_map.mpr ⟨c₀, hc₀, rfl⟩)
        rcases List.mem_cons.mp hc₀mem with heq | hrest
        · have : c₀ = c₁ := congrArg Prod.fst (heq.trans hq1.symm)
          exact hcc this.symm
        · simp only [sortedByUpdDesc, Bool.and_eq_true, List.all_eq_true] at hsort
          have hle := hsort.1 _ hrest
          have hlt := hmax c₁ hc₁ hcc
          have hfalse := strLe_eq_false_of_strLt hlt
          rw [← hq1] at hle
          simp only [convCount] at hle
          rw [hfalse] at hle
          exact Bool.noConfusion hle

/-- Witness for C7 at a concrete store of three conversations. -/
theorem c7_witness :
    ((⟨[⟨"a", "A", "1970-01-01 00:00:01", "1970-01-01 00:00:01", "\x7b\x7d"⟩,
        ⟨"b", "B", "1970-01-01 00:00:02", "1970-01-01 00:00:02", "\x7b\x7d"⟩,
        ⟨"c", "C", "1970-01-01 00:00:03", "1970-01-01 00:00:03", "\x7b\x7d"⟩],
       [⟨1, "c", "human", "hi", "1970-01-01 00:00:03", "\x7b\x7d"⟩], 1⟩ :
        DBState).convs.length = 3 ∧
      get_all_conversations_ok
        ⟨[⟨"a", "A", "1970-01-01 00:00:01", "1970-01-01 00:00:01", "\x7b\x7d"⟩,
          ⟨"b", "B", "1970-01-01 00:00:02", "1970-01-01 00:00:02", "\x7b\x7d"⟩,
          ⟨"c", "C", "1970-01-01 00:00:03", "1970-01-01 00:00:03", "\x7b\x7d"⟩],
         [⟨1, "c", "human", "hi", "1970-01-01 00:00:03", "\x7b\x7d"⟩], 1⟩ 1
        [(⟨"c", "C", "1970-01-01 00:00:03", "1970-01-01 00:00:03", "\x7b\x7d"⟩, 1)]) ∧
    ([(⟨"c", "C", "1970-01-01 00:00:03", "1970-01-01 00:00:03", "\x7b\x7d"⟩, 1)] :
        List (ConvRow × Nat)) =
      [(⟨"c", "C", "1970-01-01 00:00:03", "1970-01-01 00:00:03", "\x7b\x7d"⟩,
        (messagesFor
          ⟨[⟨"a", "A", "1970-01-01 00:00:01", "1970-01-01 00:00:01", "\x7b\x7d"⟩,
            ⟨"b", "B", "1970-01-01 00:00:02", "1970-01-01 00:00:02", "\x7b\x7d"⟩,
            ⟨"c", "C", "1970-01-01 00:00:03", "1970-01-01 00:00:03", "\x7b\x7d"⟩],
           [⟨1, "c", "human", "hi", "1970-01-01 00:00:03", "\x7b\x7d"⟩], 1⟩ "c").length)] :=
  by
  refine ⟨⟨by decide, ?_⟩, ?_⟩
  · exact ⟨[(⟨"c", "C", "1970-01-01 00:00:03", "1970-01-01 00:00:03", "\x7b\x7d"⟩, 1),
      (⟨"b", "B", "1970-01-01 00:00:02", "1970-01-01 00:00:02", "\x7b\x7d"⟩, 0),
      (⟨"a", "A", "1970-01-01 00:00:01", "1970-01-01 00:00:01", "\x7b\x7d"⟩, 0)],
      by decide, by decide, by decide⟩
  exact c7_list_conversations_ordered_capped_counted.2
      ⟨[⟨"a", "A", "1970-01-01 00:00:01", "1970-01-01 00:00:01", "\x7b\x7d"⟩,
        ⟨"b", "B", "1970-01-01 00:00:02", "1970-01-01 00:00:02", "\x7b\x7d"⟩,
        ⟨"c", "C", "1970-01-01 00:00:03", "1970-01-01 00:00:03", "\x7b\x7d"⟩],
       [⟨1, "c", "human", "hi", "1970-01-01 00:00:03", "\x7b\x7d"⟩], 1⟩
      [(⟨"c", "C", "1970-01-01 00:00:03", "1970-01-01 00:00:03", "\x7b\x7d"⟩, 1)]
      ⟨"c", "C", "1970-01-01 00:00:03", "1970-01-01 00:00:03", "\x7b\x7d"⟩
      (by decide) (by decide) (by decide)
      ⟨[(⟨"c", "C", "1970-01-01 00:00:03", "1970-01-01 00:00:03", "\x7b\x7d"⟩, 1),
        (⟨"b", "B", "1970-01-01 00:00:02", "1970-01-01 00:00:02", "\x7b\x7d"⟩, 0),
        (⟨"a", "A", "1970-01-01 00:00:01", "1970-01-01 00:00:01", "\x7b\x7d"⟩, 0)],
        by decide, by decide, by decide⟩

theorem step_preserves_nodup (s : DBState) (op : Op)
    (h : (s.msgs.map (fun m => m.id)).Nodup) :
    ((step s op).msgs.map (fun m => m.id)).Nodup := by
  cases op with
  | addMsg cid role content md tIns tUpd r =>
    show (((add_message s cid role content md tIns tUpd r).2.msgs).map _).Nodup
    rw [add_message_msgs, List.map_append]
    simp only [List.map_cons, List.map_nil]
    refine List.nodup_append.mpr ⟨h, List.nodup_singleton _, ?_⟩
    intro x hx hx2
    simp only [List.mem_singleton] at hx2
    subst hx2
    obtain ⟨m, hm, hmid⟩ := List.mem_map.mp hx
    have := nextMessageId_gt_mem hm
    omega
  | create cid title md tIns r₁ r₂ =>
    rw [step_msgs_of_not_add s _ (fun _ _ _ _ _ _ _ hh => Op.noConfusion hh)]
    exact h
  | delete cid =>
    rw [step_msgs_of_not_add s _ (fun _ _ _ _ _ _ _ hh => Op.noConfusion hh)]
    exact h
  | updateTitle cid title now =>
    rw [step_msgs_of_not_add s _ (fun _ _ _ _ _ _ _ hh => Op.noConfusion hh)]
    exact h

/-- C9: message ids are store-assigned, strictly increasing and never
shared: (a) along any sequence of store calls from the fresh store, the
persisted messages always carry pairwise distinct ids (deletes never free an
id for reuse — `AUTOINCREMENT` keeps the sequence high-water mark); (b) of
any two `add_message` calls, with any store calls in between and regardless
of which conversations they target, the later call returns a strictly
greater id. -/
theorem c9_message_ids_monotone_and_unique :
    (∀ ops : List Op, ((run emptyDB ops).msgs.map (fun m => m.id)).Nodup) ∧
    (∀ (s : DBState) (mid : List Op) (cid₁ role₁ content₁ : String) (md₁ : Option Json)
        (t₁ u₁ : Nat) (r₁ : Nat × Nat) (cid₂ role₂ content₂ : String) (md₂ : Option Json)
        (t₂ u₂ : Nat) (r₂ : Nat × Nat),
        (add_message s cid₁ role₁ content₁ md₁ t₁ u₁ r₁).1.id <
          (add_message (run (add_message s cid₁ role₁ content₁ md₁ t₁ u₁ r₁).2 mid)
            cid₂ role₂ content₂ md₂ t₂ u₂ r₂).1.id) := by
  constructor
  · intro ops
    suffices h : ∀ (s : DBState), (s.msgs.map (fun m => m.id)).Nodup →
        ((run s ops).msgs.map (fun m => m.id)).Nodup from h emptyDB (by simp [emptyDB])
    induction ops with
    | nil => intro s h; exact h
    | cons op ops ih =>
      intro s h
      exact ih (step s op) (step_preserves_nodup s op h)
  · intro s mid cid₁ role₁ content₁ md₁ t₁ u₁ r₁ cid₂ role₂ content₂ md₂ t₂ u₂ r₂
    have h₁ : (add_message s cid₁ role₁ content₁ md₁ t₁ u₁ r₁).1.id = nextMessageId s := rfl
    have hs₁ : (add_message s cid₁ role₁ content₁ md₁ t₁ u₁ r₁).2.seq = nextMessageId s := rfl
    have h₂ : (add_message (run (add_message s cid₁ role₁ content₁ md₁ t₁ u₁ r₁).2 mid)
        cid₂ role₂ content₂ md₂ t₂ u₂ r₂).1.id =
        nextMessageId (run (add_message s cid₁ role₁ content₁ md₁ t₁ u₁ r₁).2 mid) := rfl
    have hmono := run_seq_mono (add_message s cid₁ role₁ content₁ md₁ t₁ u₁ r₁).2 mid
    rw [h₁, h₂]
    rw [hs₁] at hmono
    simp only [nextMessageId] at hmono ⊢
    omega

end ConversationStore
